import Mathlib

/-!
Verification of the `free-disk` utility (`src/free_disk/__init__.py`).

The development shallowly embeds the two pieces of the program that the
specification talks about:

* the size-string parser `_data_size_to_bytes` (regex
  `^([\d\.]+)\s*([A-Za-z]+)?$`, a unit table, `float` conversion and
  `round`), and
* the reclamation algorithm of `_main`: initial disk-usage measurement,
  pre-flight sufficiency check, recursive scan filtered by an
  anchored regular-expression match, a stable sort by modification time,
  the deletion loop with its two tracking modes, the completion report and
  the exit code.

Filesystem free space is modelled by an oracle `fsFree : Nat → Nat`
giving the value returned by the k-th `shutil.disk_usage(...).free`
query of the run; a query counter is threaded through the run so that
"which measurement a decision uses" is explicit.  Python `float`
arithmetic is modelled as IEEE-754 binary64: `float(string)` and the
product with the unit factor are correctly rounded to 53-bit
significands (round to nearest, ties to even, subnormals and overflow
to infinity included), as CPython computes them.  The size regex is
modelled with `$` accepting the end of the string or the position just
before one trailing newline, as Python's `$` does without
`re.MULTILINE`.  The character classes `\d` and `\s` are modelled by
their ASCII extents (`0-9`, and Python's ten ASCII whitespace code
points); the theorems about the parser's error taxonomy are stated for
ASCII inputs, where this model is exact — non-ASCII Unicode digits and
spaces are outside their scope.
-/

namespace FreeDisk

/-! ### Character classes of the size regex `^([\d\.]+)\s*([A-Za-z]+)?$` -/

/-- `[\d\.]` : a decimal digit or a dot.  Python's `\d` also matches
non-ASCII Unicode decimal digits; those are not modelled, and the
theorems about the parser's error taxonomy therefore restrict their
inputs to ASCII, where `\d` is exactly `0-9`. -/
def isDigitDotChar (c : Char) : Bool := c.isDigit || c = '.'

/-- `\s`, ASCII extent: Python's Unicode whitespace within ASCII is
`\t`, `\n`, `\v`, `\f`, `\r`, the four separator control characters
`\x1c`-`\x1f`, and the space.  (Non-ASCII whitespace such as NBSP is
outside the ASCII scope of the taxonomy theorems.) -/
def isSpaceChar (c : Char) : Bool :=
  c = ' ' || c = '\t' || c = '\n' || c = '\r' || c = '\x0b' || c = '\x0c'
    || c = '\x1c' || c = '\x1d' || c = '\x1e' || c = '\x1f'

/-- `[A-Za-z]` : an ASCII letter. -/
def isAsciiLetterChar (c : Char) : Bool :=
  ('A' ≤ c && c ≤ 'Z') || ('a' ≤ c && c ≤ 'z')

/-- The regex `^([\d\.]+)\s*([A-Za-z]+)?$` matched against the whole of
`s`: because the three character classes are pairwise disjoint, this is
equivalent to splitting `s` into three maximal runs and requiring that
nothing is left over.  Returns `group(1)` (the digits-and-dots run) and
the optional `group(2)` (the letters run). -/
def sizeRegexCore (s : List Char) : Option (List Char × Option (List Char)) :=
  let d := s.takeWhile isDigitDotChar
  let r1 := s.dropWhile isDigitDotChar
  let r2 := r1.dropWhile isSpaceChar
  let u := r2.takeWhile isAsciiLetterChar
  let r3 := r2.dropWhile isAsciiLetterChar
  if d ≠ [] ∧ r3 = [] then some (d, if u = [] then none else some u) else none

/-- The match of `re.match(r"^([\d\.]+)\s*([A-Za-z]+)?$", s)` from
`_data_size_to_bytes`.  Python's `$` (without `re.MULTILINE`) matches at
the end of the string or just before a newline that ends the string, so
the pattern matches `s` iff its three runs cover `s` entirely or cover
`s` without one trailing `'\n'` (e.g. `"4KiB\n"` matches with groups
`("4", "KiB")`).  When both cover — only possible with no unit, the
trailing newline then sitting inside `\s*` — the groups coincide. -/
def sizeRegexMatch (s : List Char) : Option (List Char × Option (List Char)) :=
  match sizeRegexCore s with
  | some r => some r
  | none => if s.getLast? = some '\n' then sizeRegexCore s.dropLast else none

/-- The table `_DATA_SIZE_UNIT_BYTE_CONVERSION_FACTOR`, as a lookup. -/
def DATA_SIZE_UNIT_BYTE_CONVERSION_FACTOR : String → Option Nat
  | "B" => some 1
  | "kB" => some (10 ^ 3)
  | "KB" => some (10 ^ 3)
  | "MB" => some (10 ^ 6)
  | "GB" => some (10 ^ 9)
  | "TB" => some (10 ^ 12)
  | "KiB" => some (2 ^ 10)
  | "MiB" => some (2 ^ 20)
  | "GiB" => some (2 ^ 30)
  | "TiB" => some (2 ^ 40)
  | _ => none

/-- The ways `_data_size_to_bytes` can raise.  `invalidFormat` is the
explicit `ValueError("Unable to parse data size ...")`, `unknownUnit` the
explicit `ValueError("Unknown data size unit symbol ...")`,
`floatConvError` the uncaught `ValueError` raised by `float(...)` when
`group(1)` matched `[\d\.]+` but is not a valid decimal literal, and
`overflowError` the uncaught `OverflowError` raised by `int(...)` when
the conversion or the product overflows to infinity (e.g. on a number
with more than 309 integer digits: `float` returns `inf`,
`round(inf, 0)` returns `inf`, and `int(inf)` raises). -/
inductive SizeError where
  | invalidFormat (s : String)
  | unknownUnit (u : String)
  | floatConvError (d : String)
  | overflowError (d : String)
deriving Repr, DecidableEq

/-- Decimal digits to a natural number. -/
def digitsToNat (l : List Char) : Nat :=
  l.foldl (fun a c => a * 10 + (c.toNat - 48)) 0

/-- `float(d)` succeeds on a `[\d\.]+` string iff it has at most one dot
and at least one digit. -/
def validFloatStr (d : List Char) : Bool :=
  d.count '.' ≤ 1 && d.any Char.isDigit

/-- The exact rational value of a valid decimal literal over `[\d\.]+`
(spec-side reference value, before any floating-point rounding). -/
def floatVal (d : List Char) : ℚ :=
  let ip := d.takeWhile (fun c => c ≠ '.')
  let fp := (d.dropWhile (fun c => c ≠ '.')).drop 1
  (digitsToNat ip : ℚ) + (digitsToNat fp : ℚ) / (10 ^ fp.length : ℚ)

/-- Numerator of the exact value of the decimal literal `d` (the digits
with the dot removed). -/
def floatValNum (d : List Char) : Nat :=
  let ip := d.takeWhile (fun c => c ≠ '.')
  let fp := (d.dropWhile (fun c => c ≠ '.')).drop 1
  digitsToNat ip * 10 ^ fp.length + digitsToNat fp

/-- Denominator of the exact value of the decimal literal `d` (a power
of ten given by the number of fractional digits). -/
def floatValDen (d : List Char) : Nat :=
  let fp := (d.dropWhile (fun c => c ≠ '.')).drop 1
  10 ^ fp.length

/-- Round to nearest, ties to even, of the exact value (spec-side
reference rounding). -/
def roundHalfEven (q : ℚ) : ℤ :=
  let f := ⌊q⌋
  if q - f < 1 / 2 then f
  else if q - f > 1 / 2 then f + 1
  else if f % 2 = 0 then f else f + 1

/-- `⌊log₂ n⌋` with explicit fuel, so that it is structurally recursive
and reduces in the kernel (`Nat.log2` is well-founded recursion, which
does not). -/
def log2Fuel : Nat → Nat → Nat
  | 0, _ => 0
  | f + 1, n => if n ≤ 1 then 0 else log2Fuel f (n / 2) + 1

/-- `⌊log₂ n⌋` for `n ≥ 1` (0 at 0). -/
def natLog2 (n : Nat) : Nat := log2Fuel n n

/-- Round `A / B` (`B > 0`) to the nearest natural number, ties to
even — by quotient and remainder, so that it computes. -/
def rneNat (A B : Nat) : Nat :=
  let q := A / B
  let r := A % B
  if 2 * r < B then q
  else if B < 2 * r then q + 1
  else if q % 2 = 0 then q else q + 1

/-- `⌊log₂ (N / D)⌋` for positive `N` and `D`: the bit lengths give two
candidates, separated by one exact comparison. -/
def ilog2 (N D : Nat) : Int :=
  let c : Int := (natLog2 N : Int) - (natLog2 D : Int)
  if (if 0 ≤ c then D * 2 ^ c.toNat ≤ N else D ≤ N * 2 ^ (-c).toNat)
  then c else c - 1

/-- Round the non-negative rational `N / D` (`D > 0`) to an IEEE-754
binary64 value: round to nearest with ties to even at 53 bits of
significand, exponents down to the subnormal range (`2 ^ -1074` steps)
and overflow to infinity at `2 ^ 1024`.  Returns `some (m, t)`
representing the double `m * 2 ^ t`, or `none` for infinity.  This is
the value CPython's correctly-rounded `float(string)` produces, and the
result of a binary64 multiplication when applied to the exact product
of its operands. -/
def flPair (N D : Nat) : Option (Nat × Int) :=
  if N = 0 then some (0, 0)
  else
    let e := ilog2 N D
    if 1023 < e then none
    else
      let e2 : Int := max e (-1022)
      let m := if e2 ≤ 52 then rneNat (N * 2 ^ (52 - e2).toNat) D
               else rneNat N (D * 2 ^ (e2 - 52).toNat)
      if e = 1023 ∧ m = 2 ^ 53 then none
      else some (m, e2 - 52)

/-- The dyadic `m * 2 ^ t` as a numerator-denominator pair. -/
def pairToND (m : Nat) (t : Int) : Nat × Nat :=
  if 0 ≤ t then (m * 2 ^ t.toNat, 1) else (m, 2 ^ (-t).toNat)

/-- The value of the double `m * 2 ^ t` as a rational. -/
def pairVal (m : Nat) (t : Int) : ℚ := (m : ℚ) * (2 : ℚ) ^ t

/-- `int(round(x, 0))` on the finite non-negative double `m * 2 ^ t`:
the nearest integer, ties to even (exact on the dyadic value). -/
def rhePair (m : Nat) (t : Int) : Nat :=
  if 0 ≤ t then m * 2 ^ t.toNat else rneNat m (2 ^ (-t).toNat)

/-- Lines 41-42 of the source for a matched numeric group `d` and a
factor `f`: `float(match.group(1))` (binary64 conversion), `* factor`
(binary64 product), `round(..., 0)` and `int(...)`.  `float(...)`
raises `ValueError` when `d` is not a valid decimal literal; an
infinite conversion or product makes `int(...)` raise an uncaught
`OverflowError`. -/
def byteRound (d : List Char) (f : Nat) : Except SizeError Int :=
  if validFloatStr d then
    match flPair (floatValNum d) (floatValDen d) with
    | none => .error (.overflowError (String.mk d))
    | some p1 =>
      let nd := pairToND (p1.1 * f) p1.2
      match flPair nd.1 nd.2 with
      | none => .error (.overflowError (String.mk d))
      | some p2 => .ok ((rhePair p2.1 p2.2 : Nat) : Int)
  else .error (.floatConvError (String.mk d))

/-- `_data_size_to_bytes`: regex match, unit lookup, float conversion,
multiplication and rounding — in the source's order (the unit is looked
up before the numeric group is converted). -/
def data_size_to_bytes (s : String) : Except SizeError Int :=
  match sizeRegexMatch s.data with
  | none => .error (.invalidFormat s)
  | some (d, unitOpt) =>
    let factorE : Except SizeError Nat :=
      match unitOpt with
      | some u =>
        match DATA_SIZE_UNIT_BYTE_CONVERSION_FACTOR (String.mk u) with
        | some f => .ok f
        | none => .error (.unknownUnit (String.mk u))
      | none => .ok 1
    match factorE with
    | .error e => .error e
    | .ok f => byteRound d f

/-! ### Regular expressions

`_main` compiles `args.delete_re` with `re.compile` and keeps a file as a
candidate iff `delete_re.match(path)` is truthy.  Python's `match` anchors
at the start of the string and accepts as soon as SOME prefix of the
string is in the pattern's language.  We embed a regular-expression
language with its standard semantics and a Brzozowski-derivative matcher,
so that the anchored-prefix behaviour is a provable property, not a
definition. -/

inductive Regex where
  | emptyset
  | eps
  | char (c : Char)
  | anychar
  | alt (r s : Regex)
  | cat (r s : Regex)
  | star (r : Regex)
deriving Repr, DecidableEq

/-- Does the regex accept the empty string? -/
def nullable : Regex → Bool
  | .emptyset => false
  | .eps => true
  | .char _ => false
  | .anychar => false
  | .alt r s => nullable r || nullable s
  | .cat r s => nullable r && nullable s
  | .star _ => true

/-- Brzozowski derivative.  `anychar` models Python's `.`, which matches
any character except a newline. -/
def deriv (r : Regex) (c : Char) : Regex :=
  match r with
  | .emptyset => .emptyset
  | .eps => .emptyset
  | .char a => if a = c then .eps else .emptyset
  | .anychar => if c = '\n' then .emptyset else .eps
  | .alt r s => .alt (deriv r c) (deriv s c)
  | .cat r s =>
    if nullable r then .alt (.cat (deriv r c) s) (deriv s c)
    else .cat (deriv r c) s
  | .star r => .cat (deriv r c) (.star r)

/-- Standard language semantics of the regex. -/
inductive RMatch : Regex → List Char → Prop where
  | eps : RMatch .eps []
  | char (c : Char) : RMatch (.char c) [c]
  | anychar (c : Char) : c ≠ '\n' → RMatch .anychar [c]
  | altL {r s : Regex} {w : List Char} : RMatch r w → RMatch (.alt r s) w
  | altR {r s : Regex} {w : List Char} : RMatch s w → RMatch (.alt r s) w
  | cat {r s : Regex} {w1 w2 : List Char} :
      RMatch r w1 → RMatch s w2 → RMatch (.cat r s) (w1 ++ w2)
  | starNil {r : Regex} : RMatch (.star r) []
  | starCons {r : Regex} {w1 w2 : List Char} :
      RMatch r w1 → RMatch (.star r) w2 → RMatch (.star r) (w1 ++ w2)

/-- `re.match` at the start of the string: accept as soon as the
remaining pattern is nullable, i.e. accept iff some prefix is matched. -/
def reMatch (r : Regex) : List Char → Bool
  | [] => nullable r
  | c :: cs => nullable r || reMatch (deriv r c) cs

/-- The default `--delete-re` value `.*`. -/
def reAll : Regex := .star .anychar

/-! ### Data model of the reclamation run -/

/-- One scanned file: its path and the `os.stat` snapshot used by the
run (`st_size` and `st_mtime`). -/
structure FileCand where
  path : String
  size : Nat
  mtime : Int
deriving Repr, DecidableEq

/-- Sort key order of `stat_paths.sort(key=lambda x: x[0].st_mtime)`. -/
def mtime_le (a b : FileCand) : Prop := a.mtime ≤ b.mtime

instance : DecidableRel mtime_le := fun a b => Int.decLe a.mtime b.mtime

instance : IsTotal FileCand mtime_le := ⟨fun a b => Int.le_total a.mtime b.mtime⟩

instance : IsTrans FileCand mtime_le := ⟨fun _ _ _ h h' => Int.le_trans h h'⟩

/-- `list.sort(key=...)` is a stable ascending sort; `List.insertionSort`
with the non-strict key order is stable and ascending, hence produces the
same list. -/
def sortByMtime (l : List FileCand) : List FileCand := l.insertionSort mtime_le

/-- Total size of a list of candidates. -/
def candSum (l : List FileCand) : Nat := (l.map FileCand.size).sum

/-- The mutable state of `_main`'s loop: `space_freed`,
`removed_files_counter`, `last_mtime`, plus the index of the next
disk-usage query (how many `shutil.disk_usage` calls happened so far). -/
structure LoopState where
  spaceFreed : Nat
  removedCount : Nat
  lastMtime : Option Int
  k : Nat
deriving Repr, DecidableEq

/-- The completion report of `_main` (lines 112-118).  The ISO-8601
timestamp printed for the last removed file is a pure rendering of its
epoch `st_mtime`, modelled here by the raw value. -/
structure Summary where
  count : Nat
  lastMtime : Option Int
  bytesFreed : Nat
  fsDelta : Int
deriving Repr, DecidableEq

/-- Everything observable about one completed run of `_main`. -/
structure RunResult where
  deleted : List FileCand
  spaceFreed : Nat
  removedCount : Nat
  lastMtime : Option Int
  warnNoFiles : Bool
  summary : Option Summary
  exitZero : Bool
  earlyExit : Bool
  finalCheckPerformed : Bool
  reportQuery : Option Nat
  queriesUsed : Nat
deriving Repr, DecidableEq

/-- `sufficient_free_space(track_bytes_deleted)` (lines 77-81).  In
`BytesDeletedTotal` mode it compares the precomputed deficit with the
bytes freed so far; otherwise it queries the filesystem (the `k`-th
query of the run). -/
def sufficient_free_space (free_bytes : Nat) (space_to_free : Int)
    (space_freed : Nat) (fsFree : Nat → Nat) (k : Nat) (track : Bool) : Bool :=
  if track then decide (space_to_free - (space_freed : Int) ≤ 0)
  else decide (free_bytes ≤ fsFree k)

/-- The loop state at entry of the deletion loop: nothing freed, nothing
removed, no last mtime, next disk-usage query index `k`. -/
def initState (k : Nat) : LoopState :=
  { spaceFreed := 0, removedCount := 0, lastMtime := none, k := k }

/-- The deletion loop of `_main` (lines 98-107): before each deletion
check sufficiency in the configured mode (a live query consumes one
oracle index), stop without deleting if sufficient, otherwise delete and
update the counters.  Returns the list of deleted files (the sequence of
`os.remove` calls) and the final state. -/
def main_loop (free_bytes : Nat) (track : Bool) (space_to_free : Int)
    (fsFree : Nat → Nat) : List FileCand → LoopState → List FileCand × LoopState
  | [], st => ([], st)
  | c :: rest, st =>
    let suff := sufficient_free_space free_bytes space_to_free st.spaceFreed fsFree st.k track
    let k' := if track then st.k else st.k + 1
    if suff then ([], { st with k := k' })
    else
      let st' : LoopState :=
        { spaceFreed := st.spaceFreed + c.size
          removedCount := st.removedCount + 1
          lastMtime := some c.mtime
          k := k' }
      let out := main_loop free_bytes track space_to_free fsFree rest st'
      (c :: out.1, out.2)

/-- `_main` (lines 72-121), given the parsed arguments, the scan result
(the files found by `os.walk` with their `os.stat` snapshots, in scan
order) and the disk-usage oracle:

* query 0 is the initial `shutil.disk_usage`; `space_to_free` is the
  deficit target minus that measurement;
* the pre-flight `sufficient_free_space()` call uses the default
  `track_bytes_deleted=False`, i.e. a live query (index 1) whatever the
  configured mode; on success `_main` returns, which exits with status 0
  and performs no further check;
* otherwise the candidates are filtered by `delete_re.match` and stably
  sorted by `st_mtime`, and the loop runs;
* zero removals emit the "No files to remove" warning, otherwise the
  summary is emitted (one more query for the observed delta);
* finally `sys.exit(not sufficient_free_space(args.track_bytes_deleted))`
  (one more query in `FilesystemFreeSpace` mode). -/
def main_run (free_bytes : Nat) (re : Regex) (track : Bool)
    (files : List FileCand) (fsFree : Nat → Nat) : RunResult :=
  let initialFree := fsFree 0
  let space_to_free : Int := (free_bytes : Int) - (initialFree : Int)
  if free_bytes ≤ fsFree 1 then
    { deleted := []
      spaceFreed := 0
      removedCount := 0
      lastMtime := none
      warnNoFiles := false
      summary := none
      exitZero := true
      earlyExit := true
      finalCheckPerformed := false
      reportQuery := none
      queriesUsed := 2 }
  else
    let cands := sortByMtime (files.filter fun c => reMatch re c.path.data)
    let out := main_loop free_bytes track space_to_free fsFree cands
      (initState 2)
    let st := out.2
    if st.removedCount = 0 then
      let exitZ := sufficient_free_space free_bytes space_to_free st.spaceFreed fsFree st.k track
      { deleted := out.1
        spaceFreed := st.spaceFreed
        removedCount := st.removedCount
        lastMtime := st.lastMtime
        warnNoFiles := true
        summary := none
        exitZero := exitZ
        earlyExit := false
        finalCheckPerformed := true
        reportQuery := none
        queriesUsed := if track then st.k else st.k + 1 }
    else
      let delta : Int := (fsFree st.k : Int) - (initialFree : Int)
      let k1 := st.k + 1
      let exitZ := sufficient_free_space free_bytes space_to_free st.spaceFreed fsFree k1 track
      { deleted := out.1
        spaceFreed := st.spaceFreed
        removedCount := st.removedCount
        lastMtime := st.lastMtime
        warnNoFiles := false
        summary := some
          { count := st.removedCount
            lastMtime := st.lastMtime
            bytesFreed := st.spaceFreed
            fsDelta := delta }
        exitZero := exitZ
        earlyExit := false
        finalCheckPerformed := true
        reportQuery := some st.k
        queriesUsed := if track then k1 else k1 + 1 }

/-! ### Auxiliary definitions used by the claims -/

instance : DecidableEq (Except SizeError Int) := fun a b =>
  match a, b with
  | .error e1, .error e2 => decidable_of_iff (e1 = e2) (by simp)
  | .ok v1, .ok v2 => decidable_of_iff (v1 = v2) (by simp)
  | .error _, .ok _ => isFalse (by simp)
  | .ok _, .error _ => isFalse (by simp)

/-- Did the parser raise the explicit "Unable to parse data size" error? -/
def isInvalidFormatErr : Except SizeError Int → Bool
  | .error (.invalidFormat _) => true
  | _ => false

/-- Did the parser raise the explicit "Unknown data size unit symbol"
error? -/
def isUnknownUnitErr : Except SizeError Int → Bool
  | .error (.unknownUnit _) => true
  | _ => false

/-- Modelled from the spec's words, for comparison with the code: a
"numeric value (integer or decimal)" — digits and dots with at least one
digit and at most one dot. -/
def specNumber (d : List Char) : Bool :=
  !d.isEmpty && d.all isDigitDotChar && decide (d.count '.' ≤ 1)
    && d.any Char.isDigit

/-- Modelled from the spec's words, for comparison with the code: the
stated grammar of the size parser, `<number>[<unit>]` — a numeric value
immediately followed by an optional letters-only unit. -/
def specGrammar (s : List Char) : Bool :=
  (List.range (s.length + 1)).any fun k =>
    specNumber (s.take k) && (s.drop k).all isAsciiLetterChar

/-- The strings actually accepted by the size regex
`^([\d\.]+)\s*([A-Za-z]+)?$`: a non-empty digits-and-dots run, optional
whitespace and an optional letters run, which cover the whole string or
the whole string less one trailing newline (Python's `$`). -/
def matchesRelaxed (s : List Char) : Prop :=
  ∃ d w u, (s = d ++ w ++ u ∨ s = d ++ w ++ u ++ ['\n']) ∧ d ≠ [] ∧
    (∀ c ∈ d, isDigitDotChar c = true) ∧
    (∀ c ∈ w, isSpaceChar c = true) ∧
    (∀ c ∈ u, isAsciiLetterChar c = true)

/-- The final sufficiency check of `_main` line 121, phrased over the
observable run result: in `BytesDeletedTotal` mode the deficit computed
from the initial measurement compared with the total size of the deleted
files, otherwise a live comparison of the last query of the run. -/
def finalCheckSpecB (free_bytes : Nat) (track : Bool) (fsFree : Nat → Nat)
    (r : RunResult) : Bool :=
  if track then
    decide ((free_bytes : Int) - (fsFree 0 : Int) ≤ (candSum r.deleted : Int))
  else decide (free_bytes ≤ fsFree (r.queriesUsed - 1))

/-- The three files of the spec's worked scenario. -/
def exA : FileCand := { path := "/data/A", size := 100, mtime := 1 }

def exB : FileCand := { path := "/data/B", size := 200, mtime := 2 }

def exC : FileCand := { path := "/data/C", size := 50, mtime := 3 }

def exFiles : List FileCand := [exA, exB, exC]

/-! ### Lemmas: the three character classes are pairwise disjoint -/

theorem space_not_digitdot {c : Char} (h : isSpaceChar c = true) :
    isDigitDotChar c = false := by
  simp only [isSpaceChar, Bool.or_eq_true, decide_eq_true_eq] at h
  rcases h with ((((((((h | h) | h) | h) | h) | h) | h) | h) | h) | h <;>
    subst h <;> decide

theorem letter_not_digitdot {c : Char} (h : isAsciiLetterChar c = true) :
    isDigitDotChar c = false := by
  simp only [isAsciiLetterChar, Bool.or_eq_true, Bool.and_eq_true,
    decide_eq_true_eq] at h
  have hA : ('9' : Char) < c ∧ ('.' : Char) < c := by
    rcases h with ⟨h1, _⟩ | ⟨h1, _⟩
    · exact ⟨lt_of_lt_of_le (by decide) h1, lt_of_lt_of_le (by decide) h1⟩
    · exact ⟨lt_of_lt_of_le (by decide) h1, lt_of_lt_of_le (by decide) h1⟩
  simp only [isDigitDotChar, Char.isDigit, Bool.or_eq_false_iff,
    Bool.and_eq_false_iff]
  refine ⟨Or.inr ?_, ?_⟩
  · simpa using not_le_of_lt hA.1
  · simpa using ne_of_gt hA.2

theorem letter_not_space {c : Char} (h : isAsciiLetterChar c = true) :
    isSpaceChar c = false := by
  simp only [isAsciiLetterChar, Bool.or_eq_true, Bool.and_eq_true,
    decide_eq_true_eq] at h
  have hA : (' ' : Char) < c := by
    rcases h with ⟨h1, _⟩ | ⟨h1, _⟩
    · exact lt_of_lt_of_le (by decide) h1
    · exact lt_of_lt_of_le (by decide) h1
  have h9 : ∀ d : Char, d ≤ ' ' → c ≠ d := by
    intro d hd
    exact ne_of_gt (lt_of_le_of_lt hd hA)
  simp only [isSpaceChar, Bool.or_eq_false_iff]
  refine ⟨⟨⟨⟨⟨⟨⟨⟨⟨?_, ?_⟩, ?_⟩, ?_⟩, ?_⟩, ?_⟩, ?_⟩, ?_⟩, ?_⟩, ?_⟩ <;>
    simpa using h9 _ (by decide)

/-! ### Lemmas: spans over concatenations of runs -/

theorem takeWhile_append_all {p : Char → Bool} :
    ∀ {d rest : List Char}, (∀ c ∈ d, p c = true) →
      (d ++ rest).takeWhile p = d ++ rest.takeWhile p
  | [], _, _ => rfl
  | c :: d, rest, h => by
    have hc : p c = true := h c (List.mem_cons_self c d)
    simp only [List.cons_append, List.takeWhile_cons, hc, if_true]
    rw [takeWhile_append_all fun x hx => h x (List.mem_cons_of_mem c hx)]

theorem dropWhile_append_all {p : Char → Bool} :
    ∀ {d rest : List Char}, (∀ c ∈ d, p c = true) →
      (d ++ rest).dropWhile p = rest.dropWhile p
  | [], _, _ => rfl
  | c :: d, rest, h => by
    have hc : p c = true := h c (List.mem_cons_self c d)
    simp only [List.cons_append, List.dropWhile_cons, hc, if_true]
    exact dropWhile_append_all fun x hx => h x (List.mem_cons_of_mem c hx)

theorem takeWhile_eq_nil_of_head {p : Char → Bool} :
    ∀ {l : List Char}, (∀ c ∈ l.head?, p c = false) → l.takeWhile p = []
  | [], _ => rfl
  | c :: l, h => by
    have hc : p c = false := h c rfl
    simp [List.takeWhile_cons, hc]

theorem dropWhile_eq_self_of_head {p : Char → Bool} :
    ∀ {l : List Char}, (∀ c ∈ l.head?, p c = false) → l.dropWhile p = l
  | [], _ => rfl
  | c :: l, h => by
    have hc : p c = false := h c rfl
    simp [List.dropWhile_cons, hc]

/-- Evaluation of the size regex on a string presented as its three runs:
because the classes are disjoint, the spans recover exactly the runs. -/
theorem sizeRegexCore_decomp {d w u : List Char}
    (hd : ∀ c ∈ d, isDigitDotChar c = true) (hdne : d ≠ [])
    (hw : ∀ c ∈ w, isSpaceChar c = true)
    (hu : ∀ c ∈ u, isAsciiLetterChar c = true) :
    sizeRegexCore (d ++ w ++ u) = some (d, if u = [] then none else some u) := by
  have hwu_head : ∀ c ∈ (w ++ u).head?, isDigitDotChar c = false := by
    intro c hc
    cases w with
    | nil =>
      cases u with
      | nil => simp at hc
      | cons a l =>
        simp only [List.nil_append, List.head?_cons, Option.mem_some_iff] at hc
        subst hc
        exact letter_not_digitdot (hu _ (List.mem_cons_self _ _))
    | cons a l =>
      simp only [List.cons_append, List.head?_cons, Option.mem_some_iff] at hc
      subst hc
      exact space_not_digitdot (hw _ (List.mem_cons_self _ _))
  have hu_head : ∀ c ∈ u.head?, isSpaceChar c = false := by
    intro c hc
    cases u with
    | nil => simp at hc
    | cons a l =>
      simp only [List.head?_cons, Option.mem_some_iff] at hc
      subst hc
      exact letter_not_space (hu _ (List.mem_cons_self _ _))
  have h1 : (d ++ w ++ u).takeWhile isDigitDotChar = d := by
    rw [List.append_assoc, takeWhile_append_all hd, takeWhile_eq_nil_of_head hwu_head,
      List.append_nil]
  have h2 : (d ++ w ++ u).dropWhile isDigitDotChar = w ++ u := by
    rw [List.append_assoc, dropWhile_append_all hd, dropWhile_eq_self_of_head hwu_head]
  have h3 : (w ++ u).dropWhile isSpaceChar = u := by
    rw [dropWhile_append_all hw, dropWhile_eq_self_of_head hu_head]
  have h4 : u.takeWhile isAsciiLetterChar = u := List.takeWhile_eq_self_iff.mpr hu
  have h5 : u.dropWhile isAsciiLetterChar = [] := List.dropWhile_eq_nil_iff.mpr hu
  simp only [sizeRegexCore, h1, h2, h3, h4, h5]
  simp [hdne]

/-- Conversely, a successful whole-string match decomposes the string
into its three runs. -/
theorem sizeRegexCore_inv {s : List Char} {d : List Char} {uo : Option (List Char)}
    (h : sizeRegexCore s = some (d, uo)) :
    ∃ w u, s = d ++ w ++ u ∧ d ≠ [] ∧
      (∀ c ∈ d, isDigitDotChar c = true) ∧
      (∀ c ∈ w, isSpaceChar c = true) ∧
      (∀ c ∈ u, isAsciiLetterChar c = true) ∧
      uo = (if u = [] then none else some u) := by
  simp only [sizeRegexCore] at h
  split at h
  case isFalse => exact absurd h (by simp)
  case isTrue hcond =>
    obtain ⟨hne, hr3⟩ := hcond
    rw [Option.some_inj, Prod.mk.injEq] at h
    obtain ⟨hd, huo⟩ := h
    subst hd
    refine ⟨(s.dropWhile isDigitDotChar).takeWhile isSpaceChar,
      (s.dropWhile isDigitDotChar).dropWhile isSpaceChar, ?_, hne, ?_, ?_, ?_, ?_⟩
    · rw [List.append_assoc, List.takeWhile_append_dropWhile,
        List.takeWhile_append_dropWhile]
    · exact fun c hc => List.mem_takeWhile_imp hc
    · exact fun c hc => List.mem_takeWhile_imp hc
    · intro c hc
      have : ((s.dropWhile isDigitDotChar).dropWhile isSpaceChar).dropWhile
          isAsciiLetterChar = [] := hr3
      exact List.dropWhile_eq_nil_iff.mp this c hc
    · have h4 : ((s.dropWhile isDigitDotChar).dropWhile isSpaceChar).takeWhile
          isAsciiLetterChar = (s.dropWhile isDigitDotChar).dropWhile isSpaceChar := by
        refine List.takeWhile_eq_self_iff.mpr ?_
        exact List.dropWhile_eq_nil_iff.mp hr3
      rw [h4] at huo
      exact huo.symm

/-- A whole-string match is a match. -/
theorem sizeRegexMatch_decomp {d w u : List Char}
    (hd : ∀ c ∈ d, isDigitDotChar c = true) (hdne : d ≠ [])
    (hw : ∀ c ∈ w, isSpaceChar c = true)
    (hu : ∀ c ∈ u, isAsciiLetterChar c = true) :
    sizeRegexMatch (d ++ w ++ u) = some (d, if u = [] then none else some u) := by
  unfold sizeRegexMatch
  rw [sizeRegexCore_decomp hd hdne hw hu]

/-- With a non-empty unit and a trailing newline the whole-string match
fails: the letters run leaves the newline unconsumed. -/
theorem sizeRegexCore_nl_none {d w u : List Char}
    (hd : ∀ c ∈ d, isDigitDotChar c = true)
    (hw : ∀ c ∈ w, isSpaceChar c = true)
    (hu : ∀ c ∈ u, isAsciiLetterChar c = true) (hune : u ≠ []) :
    sizeRegexCore (d ++ w ++ u ++ ['\n']) = none := by
  have hwu_head : ∀ c ∈ (w ++ (u ++ ['\n'])).head?, isDigitDotChar c = false := by
    intro c hc
    cases w with
    | nil =>
      cases u with
      | nil => exact absurd rfl hune
      | cons a l =>
        simp only [List.nil_append, List.cons_append, List.head?_cons,
          Option.mem_some_iff] at hc
        subst hc
        exact letter_not_digitdot (hu _ (List.mem_cons_self _ _))
    | cons a l =>
      simp only [List.cons_append, List.head?_cons, Option.mem_some_iff] at hc
      subst hc
      exact space_not_digitdot (hw _ (List.mem_cons_self _ _))
  have hu_head : ∀ c ∈ (u ++ ['\n']).head?, isSpaceChar c = false := by
    intro c hc
    cases u with
    | nil => exact absurd rfl hune
    | cons a l =>
      simp only [List.cons_append, List.head?_cons, Option.mem_some_iff] at hc
      subst hc
      exact letter_not_space (hu _ (List.mem_cons_self _ _))
  have hassoc : d ++ w ++ u ++ ['\n'] = d ++ (w ++ (u ++ ['\n'])) := by
    simp [List.append_assoc]
  have h1 : (d ++ w ++ u ++ ['\n']).takeWhile isDigitDotChar
      = d ++ (w ++ (u ++ ['\n'])).takeWhile isDigitDotChar := by
    rw [hassoc, takeWhile_append_all hd]
  have h2 : (d ++ w ++ u ++ ['\n']).dropWhile isDigitDotChar = w ++ (u ++ ['\n']) := by
    rw [hassoc, dropWhile_append_all hd, dropWhile_eq_self_of_head hwu_head]
  have h3 : (w ++ (u ++ ['\n'])).dropWhile isSpaceChar = u ++ ['\n'] := by
    rw [dropWhile_append_all hw, dropWhile_eq_self_of_head hu_head]
  have h5 : (u ++ ['\n']).dropWhile isAsciiLetterChar = ['\n'] := by
    rw [dropWhile_append_all hu]
    rfl
  simp only [sizeRegexCore, h2, h3, h5]
  simp

/-- A decomposition that covers all but one trailing newline, with a
non-empty unit, matches via Python's `$`-before-newline rule, yielding
the same groups as on the newline-less string. -/
theorem sizeRegexMatch_decomp_nl {d w u : List Char}
    (hd : ∀ c ∈ d, isDigitDotChar c = true) (hdne : d ≠ [])
    (hw : ∀ c ∈ w, isSpaceChar c = true)
    (hu : ∀ c ∈ u, isAsciiLetterChar c = true) (hune : u ≠ []) :
    sizeRegexMatch (d ++ w ++ u ++ ['\n']) = some (d, some u) := by
  have hcore := sizeRegexCore_nl_none hd hw hu hune
  have hlast : (d ++ w ++ u ++ ['\n']).getLast? = some '\n' :=
    List.getLast?_concat _
  have hdrop : (d ++ w ++ u ++ ['\n']).dropLast = d ++ w ++ u := by
    simp
  have hstep : sizeRegexMatch (d ++ w ++ u ++ ['\n'])
      = if (d ++ w ++ u ++ ['\n']).getLast? = some '\n'
        then sizeRegexCore ((d ++ w ++ u ++ ['\n']).dropLast) else none := by
    unfold sizeRegexMatch
    rw [hcore]
  rw [hstep, if_pos hlast, hdrop, sizeRegexCore_decomp hd hdne hw hu, if_neg hune]

/-- Conversely, a match decomposes the string into the three runs,
covering it either entirely or up to one trailing newline. -/
theorem sizeRegexMatch_inv {s : List Char} {d : List Char} {uo : Option (List Char)}
    (h : sizeRegexMatch s = some (d, uo)) :
    ∃ w u, (s = d ++ w ++ u ∨ s = d ++ w ++ u ++ ['\n']) ∧ d ≠ [] ∧
      (∀ c ∈ d, isDigitDotChar c = true) ∧
      (∀ c ∈ w, isSpaceChar c = true) ∧
      (∀ c ∈ u, isAsciiLetterChar c = true) ∧
      uo = (if u = [] then none else some u) := by
  unfold sizeRegexMatch at h
  cases hc : sizeRegexCore s with
  | some r =>
    rw [hc] at h
    have hr : sizeRegexCore s = some (d, uo) := by
      rw [hc]
      simpa using h
    obtain ⟨w, u, he, hdne, hd', hw', hu', huo⟩ := sizeRegexCore_inv hr
    exact ⟨w, u, Or.inl he, hdne, hd', hw', hu', huo⟩
  | none =>
    rw [hc] at h
    simp only at h
    split at h
    · rename_i hnl
      obtain ⟨w, u, he, hdne, hd', hw', hu', huo⟩ := sizeRegexCore_inv h
      have hsne : s ≠ [] := by
        intro hs
        rw [hs] at hnl
        simp at hnl
      have hglast : s.getLast hsne = '\n' := by
        have h2 := List.getLast?_eq_getLast s hsne
        rw [h2] at hnl
        exact Option.some_inj.mp hnl
      have hrec : s.dropLast ++ ['\n'] = s := by
        have h2 := List.dropLast_append_getLast hsne
        rw [hglast] at h2
        exact h2
      refine ⟨w, u, Or.inr ?_, hdne, hd', hw', hu', huo⟩
      rw [← hrec, he]
    · exact absurd h (by simp)

/-- The strings on which the match succeeds are exactly those of
`matchesRelaxed`. -/
theorem sizeRegexMatch_ne_none_of_matches {s : List Char}
    (h : matchesRelaxed s) : sizeRegexMatch s ≠ none := by
  obtain ⟨d, w, u, hor, hdne, hd, hw, hu⟩ := h
  cases hor with
  | inl he =>
    rw [he, sizeRegexMatch_decomp hd hdne hw hu]
    simp
  | inr he =>
    by_cases hune : u = []
    · subst hune
      have he' : s = d ++ (w ++ ['\n']) ++ ([] : List Char) := by
        rw [he]
        simp
      have hw' : ∀ c ∈ w ++ ['\n'], isSpaceChar c = true := by
        intro c hc
        rcases List.mem_append.mp hc with hc | hc
        · exact hw c hc
        · simp only [List.mem_singleton] at hc
          subst hc
          decide
      rw [he', sizeRegexMatch_decomp hd hdne hw' (by simp)]
      simp
    · rw [he, sizeRegexMatch_decomp_nl hd hdne hw hu hune]
      simp

/-! ### Lemmas: correctness of the derivative-based matcher -/

theorem nullable_rmatch : ∀ {r : Regex}, nullable r = true → RMatch r [] := by
  intro r h
  induction r with
  | emptyset => exact absurd h (by simp [nullable])
  | eps => exact RMatch.eps
  | char c => exact absurd h (by simp [nullable])
  | anychar => exact absurd h (by simp [nullable])
  | alt r s ihr ihs =>
    rcases Bool.or_eq_true_iff.mp h with h' | h'
    · exact RMatch.altL (ihr h')
    · exact RMatch.altR (ihs h')
  | cat r s ihr ihs =>
    obtain ⟨h1, h2⟩ := Bool.and_eq_true_iff.mp h
    exact RMatch.cat (ihr h1) (ihs h2)
  | star r _ => exact RMatch.starNil

theorem rmatch_nil_nullable : ∀ {r : Regex} {s : List Char},
    RMatch r s → s = [] → nullable r = true := by
  intro r s h
  induction h with
  | eps => intro _; rfl
  | char a => intro he; exact absurd he (by simp)
  | anychar a hne => intro he; exact absurd he (by simp)
  | altL h' ih => intro he; simp [nullable, ih he]
  | altR h' ih => intro he; simp [nullable, ih he]
  | cat h1 h2 ih1 ih2 =>
    intro he
    obtain ⟨e1, e2⟩ := List.append_eq_nil.mp he
    simp [nullable, ih1 e1, ih2 e2]
  | starNil => intro _; rfl
  | starCons h1 h2 ih1 ih2 => intro _; rfl

theorem deriv_complete {r : Regex} {s : List Char} (h : RMatch r s) :
    ∀ {c : Char} {w : List Char}, s = c :: w → RMatch (deriv r c) w := by
  induction h with
  | eps => intro c w he; exact absurd he (by simp)
  | char a =>
    intro c w he
    obtain ⟨hac, hw⟩ := List.cons_eq_cons.mp he
    subst hac; subst hw
    simp only [deriv, if_pos rfl]
    exact RMatch.eps
  | anychar a hne =>
    intro c w he
    obtain ⟨hac, hw⟩ := List.cons_eq_cons.mp he
    subst hac; subst hw
    simp only [deriv, if_neg hne]
    exact RMatch.eps
  | altL h' ih => intro c w he; exact RMatch.altL (ih he)
  | altR h' ih => intro c w he; exact RMatch.altR (ih he)
  | cat h1 h2 ih1 ih2 =>
    rename_i r s w1 w2
    intro c w he
    cases w1 with
    | nil =>
      simp only [List.nil_append] at he
      have hn : nullable r = true := rmatch_nil_nullable h1 rfl
      simp only [deriv, hn, if_true]
      exact RMatch.altR (ih2 he)
    | cons a t =>
      simp only [List.cons_append] at he
      obtain ⟨hac, hw⟩ := List.cons_eq_cons.mp he
      subst hw
      have hcat : RMatch (.cat (deriv r c) s) (t ++ w2) :=
        RMatch.cat (ih1 (by rw [hac])) h2
      simp only [deriv]
      split
      · exact RMatch.altL hcat
      · exact hcat
  | starNil => intro c w he; exact absurd he (by simp)
  | starCons h1 h2 ih1 ih2 =>
    rename_i r w1 w2
    intro c w he
    cases w1 with
    | nil =>
      simp only [List.nil_append] at he
      exact ih2 he
    | cons a t =>
      simp only [List.cons_append] at he
      obtain ⟨hac, hw⟩ := List.cons_eq_cons.mp he
      subst hw
      exact RMatch.cat (ih1 (by rw [hac])) h2

theorem deriv_sound : ∀ {r : Regex} {c : Char} {w : List Char},
    RMatch (deriv r c) w → RMatch r (c :: w) := by
  intro r
  induction r with
  | emptyset => intro c w h; cases h
  | eps => intro c w h; cases h
  | char a =>
    intro c w h
    simp only [deriv] at h
    split at h
    · rename_i hac
      cases h
      subst hac
      exact RMatch.char a
    · cases h
  | anychar =>
    intro c w h
    simp only [deriv] at h
    split at h
    · cases h
    · rename_i hne
      cases h
      exact RMatch.anychar c hne
  | alt r s ihr ihs =>
    intro c w h
    cases h with
    | altL h' => exact RMatch.altL (ihr h')
    | altR h' => exact RMatch.altR (ihs h')
  | cat r s ihr ihs =>
    intro c w h
    simp only [deriv] at h
    split at h
    · rename_i hn
      cases h with
      | altL h' =>
        cases h' with
        | cat h1 h2 => exact RMatch.cat (ihr h1) h2
      | altR h' =>
        exact RMatch.cat (nullable_rmatch hn) (ihs h')
    · cases h with
      | cat h1 h2 => exact RMatch.cat (ihr h1) h2
  | star r ihr =>
    intro c w h
    simp only [deriv] at h
    cases h with
    | cat h1 h2 => exact RMatch.starCons (ihr h1) h2

/-- `reMatch` accepts exactly the strings of which SOME prefix is in the
regex's language: the anchored, not-necessarily-whole match of Python's
`re.match`. -/
theorem reMatch_iff {r : Regex} {s : List Char} :
    reMatch r s = true ↔ ∃ p q, s = p ++ q ∧ RMatch r p := by
  induction s generalizing r with
  | nil =>
    simp only [reMatch]
    constructor
    · intro h
      exact ⟨[], [], rfl, nullable_rmatch h⟩
    · rintro ⟨p, q, he, hm⟩
      obtain ⟨hp, _⟩ := List.append_eq_nil.mp he.symm
      subst hp
      exact rmatch_nil_nullable hm rfl
  | cons c cs ih =>
    simp only [reMatch, Bool.or_eq_true_iff]
    constructor
    · rintro (h | h)
      · exact ⟨[], c :: cs, rfl, nullable_rmatch h⟩
      · obtain ⟨p, q, he, hm⟩ := ih.mp h
        exact ⟨c :: p, q, by simp [he], deriv_sound hm⟩
    · rintro ⟨p, q, he, hm⟩
      cases p with
      | nil =>
        exact Or.inl (rmatch_nil_nullable hm rfl)
      | cons c' p' =>
        simp only [List.cons_append] at he
        obtain ⟨hc, hcs⟩ := List.cons_eq_cons.mp he
        subst hc
        exact Or.inr (ih.mpr ⟨p', q, hcs, deriv_complete hm rfl⟩)

/-! ### Lemmas: the deletion loop -/

@[simp]
theorem candSum_nil : candSum [] = 0 := rfl

@[simp]
theorem candSum_cons (c : FileCand) (l : List FileCand) :
    candSum (c :: l) = c.size + candSum l := by
  simp [candSum]

/-- The loop deletes a prefix of its candidate list. -/
theorem main_loop_fst_take (fb : Nat) (tr : Bool) (s : Int) (f : Nat → Nat) :
    ∀ (l : List FileCand) (st : LoopState),
      (main_loop fb tr s f l st).1
        = l.take (main_loop fb tr s f l st).1.length
  | [], st => by simp [main_loop]
  | c :: l, st => by
    simp only [main_loop]
    by_cases hsuff :
        sufficient_free_space fb s st.spaceFreed f st.k tr = true
    · simp [hsuff]
    · simp only [Bool.not_eq_true] at hsuff
      simp only [hsuff, Bool.false_eq_true, if_false, List.length_cons,
        List.take_succ_cons, List.cons.injEq, true_and]
      exact main_loop_fst_take fb tr s f l _

/-- `space_freed` at the end is its starting value plus the total size of
the deleted files. -/
theorem main_loop_spaceFreed (fb : Nat) (tr : Bool) (s : Int) (f : Nat → Nat) :
    ∀ (l : List FileCand) (st : LoopState),
      ((main_loop fb tr s f l st).2).spaceFreed
        = st.spaceFreed + candSum (main_loop fb tr s f l st).1
  | [], st => by simp [main_loop]
  | c :: l, st => by
    simp only [main_loop]
    by_cases hsuff :
        sufficient_free_space fb s st.spaceFreed f st.k tr = true
    · simp [hsuff]
    · simp only [Bool.not_eq_true] at hsuff
      simp only [hsuff, Bool.false_eq_true, if_false]
      rw [main_loop_spaceFreed fb tr s f l _, candSum_cons]
      simp
      omega

/-- `removed_files_counter` at the end is its starting value plus the
number of deleted files. -/
theorem main_loop_count (fb : Nat) (tr : Bool) (s : Int) (f : Nat → Nat) :
    ∀ (l : List FileCand) (st : LoopState),
      ((main_loop fb tr s f l st).2).removedCount
        = st.removedCount + (main_loop fb tr s f l st).1.length
  | [], st => by simp [main_loop]
  | c :: l, st => by
    simp only [main_loop]
    by_cases hsuff :
        sufficient_free_space fb s st.spaceFreed f st.k tr = true
    · simp [hsuff]
    · simp only [Bool.not_eq_true] at hsuff
      simp only [hsuff, Bool.false_eq_true, if_false]
      rw [main_loop_count fb tr s f l _]
      simp
      omega

/-- `last_mtime` at the end folds the deleted files over the starting
value. -/
theorem main_loop_last (fb : Nat) (tr : Bool) (s : Int) (f : Nat → Nat) :
    ∀ (l : List FileCand) (st : LoopState),
      ((main_loop fb tr s f l st).2).lastMtime
        = (main_loop fb tr s f l st).1.foldl (fun _ c => some c.mtime) st.lastMtime
  | [], st => by simp [main_loop]
  | c :: l, st => by
    simp only [main_loop]
    by_cases hsuff :
        sufficient_free_space fb s st.spaceFreed f st.k tr = true
    · simp [hsuff]
    · simp only [Bool.not_eq_true] at hsuff
      simp only [hsuff, Bool.false_eq_true, if_false]
      rw [main_loop_last fb tr s f l _]
      simp

theorem foldl_mtime_getLast :
    ∀ (l : List FileCand) (a : Option Int), l ≠ [] →
      l.foldl (fun _ c => some c.mtime) a
        = (l.getLast?).map (fun c => c.mtime)
  | [], _, h => absurd rfl h
  | [c], a, _ => by simp
  | c :: c' :: l, a, _ => by
    rw [List.foldl_cons, foldl_mtime_getLast (c' :: l) _ (by simp),
      List.getLast?_cons_cons]

/-- In `BytesDeletedTotal` mode the loop never consults the disk-usage
oracle: the whole loop result is the same for any two oracles, and the
query counter does not advance. -/
theorem main_loop_track_oracle (fb : Nat) (s : Int) (f g : Nat → Nat) :
    ∀ (l : List FileCand) (st : LoopState),
      main_loop fb true s f l st = main_loop fb true s g l st
  | [], st => rfl
  | c :: l, st => by
    simp only [main_loop, sufficient_free_space, if_true]
    by_cases hsuff : s - (st.spaceFreed : Int) ≤ 0
    · simp [hsuff]
    · simp only [hsuff, decide_False, Bool.false_eq_true, if_false]
      rw [main_loop_track_oracle fb s f g l _]

theorem main_loop_track_k (fb : Nat) (s : Int) (f : Nat → Nat) :
    ∀ (l : List FileCand) (st : LoopState),
      ((main_loop fb true s f l st).2).k = st.k
  | [], st => rfl
  | c :: l, st => by
    simp only [main_loop, sufficient_free_space, if_true]
    by_cases hsuff : s - (st.spaceFreed : Int) ≤ 0
    · simp [hsuff]
    · simp only [hsuff, decide_False, Bool.false_eq_true, if_false]
      exact main_loop_track_k fb s f l _

/-- In `BytesDeletedTotal` mode, every deletion happens only while the
cumulative bytes freed are still short of the deficit. -/
theorem main_loop_track_lt (fb : Nat) (s : Int) (f : Nat → Nat) :
    ∀ (l : List FileCand) (st : LoopState) (i : Nat),
      i < (main_loop fb true s f l st).1.length →
      (st.spaceFreed : Int) + (candSum (l.take i) : Int) < s
  | [], st, i, h => by simp [main_loop] at h
  | c :: l, st, i, h => by
    simp only [main_loop, sufficient_free_space, if_true] at h ⊢
    by_cases hsuff : s - (st.spaceFreed : Int) ≤ 0
    · simp [hsuff] at h
    · simp only [hsuff, decide_False, Bool.false_eq_true, if_false] at h
      cases i with
      | zero =>
        simp only [List.take_zero, candSum_nil, Nat.cast_zero, add_zero]
        omega
      | succ i =>
        simp only [List.length_cons, Nat.succ_lt_succ_iff] at h
        have := main_loop_track_lt fb s f l
          { spaceFreed := st.spaceFreed + c.size, removedCount := st.removedCount + 1,
            lastMtime := some c.mtime, k := st.k } i h
        simp only [List.take_succ_cons, candSum_cons] at this ⊢
        push_cast at this ⊢
        omega

/-- In `BytesDeletedTotal` mode, if the loop stopped before exhausting
the candidates then at the stopping point the bytes freed had reached
the deficit — the next file is not deleted. -/
theorem main_loop_track_stop (fb : Nat) (s : Int) (f : Nat → Nat) :
    ∀ (l : List FileCand) (st : LoopState),
      (main_loop fb true s f l st).1.length < l.length →
      s ≤ (st.spaceFreed : Int)
        + (candSum (l.take (main_loop fb true s f l st).1.length) : Int)
  | [], st, h => by simp [main_loop] at h
  | c :: l, st, h => by
    simp only [main_loop, sufficient_free_space, if_true] at h ⊢
    by_cases hsuff : s - (st.spaceFreed : Int) ≤ 0
    · simp only [hsuff, decide_True, if_true, List.length_nil, List.take_zero,
        candSum_nil, Nat.cast_zero, add_zero]
      omega
    · simp only [hsuff, decide_False, Bool.false_eq_true, if_false] at h ⊢
      simp only [List.length_cons, Nat.succ_lt_succ_iff] at h
      have := main_loop_track_stop fb s f l
        { spaceFreed := st.spaceFreed + c.size, removedCount := st.removedCount + 1,
          lastMtime := some c.mtime, k := st.k } h
      simp only [List.length_cons, List.take_succ_cons, candSum_cons]
      push_cast at this ⊢
      omega

/-! ### Lemmas: the sort -/

theorem sortByMtime_sorted (l : List FileCand) :
    List.Sorted mtime_le (sortByMtime l) :=
  List.sorted_insertionSort mtime_le l

theorem sortByMtime_perm (l : List FileCand) : List.Perm (sortByMtime l) l :=
  List.perm_insertionSort mtime_le l

/-- Stability of one insertion step, seen through the elements with a
fixed sort key: the inserted element lands in front of the equal-key
elements already present, which themselves keep their order. -/
theorem filter_orderedInsert (m : Int) (a : FileCand) :
    ∀ l : List FileCand,
      (List.orderedInsert mtime_le a l).filter (fun c => decide (c.mtime = m))
        = if a.mtime = m then
            a :: l.filter (fun c => decide (c.mtime = m))
          else l.filter (fun c => decide (c.mtime = m))
  | [] => by
    by_cases ham : a.mtime = m <;> simp [List.orderedInsert, ham]
  | b :: t => by
    by_cases hle : mtime_le a b
    · by_cases ham : a.mtime = m <;>
        simp [List.orderedInsert, hle, List.filter_cons, ham]
    · have hblt : b.mtime < a.mtime := by
        simpa [mtime_le] using lt_of_not_le (fun h => hle h)
      by_cases ham : a.mtime = m
      · have hbm : ¬ b.mtime = m := by omega
        simp only [List.orderedInsert, if_neg hle, List.filter_cons,
          decide_eq_true_eq, hbm, if_false, ham, if_true]
        rw [filter_orderedInsert m a t]
        simp [ham]
      · simp only [List.orderedInsert, if_neg hle, List.filter_cons,
          decide_eq_true_eq, ham, if_false]
        rw [filter_orderedInsert m a t]
        simp only [ham, if_false]

/-- Stability of the sort: for every modification time `m`, the files
whose `st_mtime` equals `m` appear in the sorted list in exactly their
scan order — the model of `list.sort`'s stability. -/
theorem sortByMtime_filter_key (m : Int) :
    ∀ l : List FileCand,
      (sortByMtime l).filter (fun c => decide (c.mtime = m))
        = l.filter (fun c => decide (c.mtime = m))
  | [] => rfl
  | a :: t => by
    have h1 : sortByMtime (a :: t) = List.orderedInsert mtime_le a (sortByMtime t) :=
      rfl
    rw [h1, filter_orderedInsert m a (sortByMtime t), sortByMtime_filter_key m t,
      List.filter_cons]
    by_cases ham : a.mtime = m <;> simp [ham]

/-! ### Lemmas: evaluation of the size parser -/

theorem string_data_mk (l : List Char) : (String.mk l).data = l := rfl

theorem string_mk_data (u : String) : String.mk u.data = u := by
  cases u
  rfl

/-- Every unit in the conversion table is a non-empty letters-only
symbol, and every factor is positive. -/
theorem unit_letters {u : String} {f : Nat}
    (h : DATA_SIZE_UNIT_BYTE_CONVERSION_FACTOR u = some f) :
    u.data ≠ [] ∧ (∀ c ∈ u.data, isAsciiLetterChar c = true) ∧ 0 < f := by
  unfold DATA_SIZE_UNIT_BYTE_CONVERSION_FACTOR at h
  split at h
  all_goals first
    | (injection h with h'
       subst h'
       exact ⟨by decide, by decide, by decide⟩)
    | exact absurd h (by simp)

/-- The rounding of `round(x, 0)` lands within half a unit of its
argument. -/
theorem roundHalfEven_near (q : ℚ) : |(roundHalfEven q : ℚ) - q| ≤ 1 / 2 := by
  have h1 : (⌊q⌋ : ℚ) ≤ q := Int.floor_le q
  have h2 : q < ⌊q⌋ + 1 := Int.lt_floor_add_one q
  simp only [roundHalfEven]
  split_ifs with ha hb hc <;>
    · rw [abs_le]
      constructor <;> push_cast <;> linarith

/-- Evaluation of `_data_size_to_bytes` on a string of the form
digits-and-dots, whitespace, table unit: the regex matches, the factor
is found, and the float pipeline runs on the numeric group. -/
theorem data_size_eval {d w : List Char} {u : String} {f : Nat}
    (hd : ∀ c ∈ d, isDigitDotChar c = true) (hdne : d ≠ [])
    (hw : ∀ c ∈ w, isSpaceChar c = true)
    (hfac : DATA_SIZE_UNIT_BYTE_CONVERSION_FACTOR u = some f) :
    data_size_to_bytes (String.mk (d ++ w ++ u.data)) = byteRound d f := by
  obtain ⟨hune, hul, -⟩ := unit_letters hfac
  have hm : sizeRegexMatch (d ++ w ++ u.data) = some (d, some u.data) := by
    rw [sizeRegexMatch_decomp hd hdne hw hul, if_neg hune]
  simp only [data_size_to_bytes, string_data_mk, hm, string_mk_data, hfac]

/-- Evaluation of `_data_size_to_bytes` on a bare digits-and-dots
string: no unit, so the factor is 1. -/
theorem data_size_eval_bare {d : List Char}
    (hd : ∀ c ∈ d, isDigitDotChar c = true) (hdne : d ≠ []) :
    data_size_to_bytes (String.mk d) = byteRound d 1 := by
  have hm : sizeRegexMatch d = some (d, none) := by
    have h := sizeRegexMatch_decomp (w := []) (u := []) hd hdne
      (by simp) (by simp)
    simpa using h
  simp only [data_size_to_bytes, string_data_mk, hm]

/-! ### Claim C8 -/

/-- C8, counterexample: on input `"."` — which does not match the
claimed grammar `<number>[<unit>]` — the parser does not fail with the
`InvalidFormat` error; the regex accepts `"."` as `group(1)` and the
subsequent `float(".")` raises a different, uncaught `ValueError`. -/
theorem c8_counterexample :
    specGrammar ".".data = false ∧
    data_size_to_bytes "." = .error (.floatConvError ".") ∧
    data_size_to_bytes "." ≠ .error (.invalidFormat ".") := by
  exact ⟨by decide, by decide, by decide⟩

/-- A decomposition with a non-empty unit forces the match and its
groups, whether it covers the string entirely or up to one trailing
newline. -/
theorem sizeRegexMatch_some_of_unit {s d w u : List Char}
    (he : s = d ++ w ++ u ∨ s = d ++ w ++ u ++ ['\n'])
    (hdne : d ≠ []) (hd : ∀ c ∈ d, isDigitDotChar c = true)
    (hw : ∀ c ∈ w, isSpaceChar c = true)
    (hu : ∀ c ∈ u, isAsciiLetterChar c = true) (hune : u ≠ []) :
    sizeRegexMatch s = some (d, some u) := by
  cases he with
  | inl he =>
    rw [he, sizeRegexMatch_decomp hd hdne hw hu, if_neg hune]
  | inr he =>
    rw [he, sizeRegexMatch_decomp_nl hd hdne hw hu hune]

/-- Neither of the two explicit `ValueError`s of the source can come out
of the float pipeline (it yields a result, a float-conversion error or
an overflow error). -/
theorem byteRound_classifiers (d : List Char) (f : Nat) :
    isInvalidFormatErr (byteRound d f) = false
    ∧ isUnknownUnitErr (byteRound d f) = false := by
  constructor <;>
    (simp only [byteRound]
     repeat' split
     all_goals rfl)

/-- C8, amended: for ASCII inputs — the only extent on which ASCII `\d`
and `\s` coincide with Python's Unicode classes, and the scope of this
taxonomy — `InvalidFormat` is raised exactly when the input does not
decompose as a non-empty digits-and-dots run, optional whitespace and
an optional letters run covering the string entirely or up to one
trailing newline (the regex `^([\d\.]+)\s*([A-Za-z]+)?$` with Python's
`$`); `UnknownUnit` is raised exactly when such a decomposition exists
whose letters run is non-empty and absent from the conversion table.
(A string that decomposes with a known or no unit but whose numeric run
is not a valid decimal fails later, with an uncaught float conversion
error — see the counterexample.) -/
theorem c8_amended_error_taxonomy (s : String)
    (hascii : ∀ c ∈ s.data, c.val ≤ 127) :
    (isInvalidFormatErr (data_size_to_bytes s) = true ↔ ¬ matchesRelaxed s.data) ∧
    (isUnknownUnitErr (data_size_to_bytes s) = true ↔
      ∃ d w u, (s.data = d ++ w ++ u ∨ s.data = d ++ w ++ u ++ ['\n']) ∧ d ≠ [] ∧
        (∀ c ∈ d, isDigitDotChar c = true) ∧
        (∀ c ∈ w, isSpaceChar c = true) ∧
        (∀ c ∈ u, isAsciiLetterChar c = true) ∧ u ≠ [] ∧
        DATA_SIZE_UNIT_BYTE_CONVERSION_FACTOR (String.mk u) = none) := by
  cases hm : sizeRegexMatch s.data with
  | none =>
    have hres : data_size_to_bytes s = .error (.invalidFormat s) := by
      simp only [data_size_to_bytes, hm]
    have hnorel : ¬ matchesRelaxed s.data := fun h =>
      sizeRegexMatch_ne_none_of_matches h hm
    constructor
    · simp [hres, isInvalidFormatErr, hnorel]
    · constructor
      · intro h
        rw [hres] at h
        exact absurd h (by simp [isUnknownUnitErr])
      · rintro ⟨d, w, u, he, hdne, hd, hw, hu, hune, -⟩
        rw [sizeRegexMatch_some_of_unit he hdne hd hw hu hune] at hm
        exact absurd hm (by simp)
  | some p =>
    obtain ⟨d, uo⟩ := p
    obtain ⟨w0, u0, he0, hdne0, hd0, hw0, hu0, huo0⟩ := sizeRegexMatch_inv hm
    have hrel : matchesRelaxed s.data := ⟨d, w0, u0, he0, hdne0, hd0, hw0, hu0⟩
    cases uo with
    | none =>
      have hres : data_size_to_bytes s = byteRound d 1 := by
        simp only [data_size_to_bytes, hm]
      constructor
      · constructor
        · intro h
          rw [hres, (byteRound_classifiers d 1).1] at h
          exact absurd h (by simp)
        · intro h
          exact absurd hrel h
      · constructor
        · intro h
          rw [hres, (byteRound_classifiers d 1).2] at h
          exact absurd h (by simp)
        · rintro ⟨d1, w1, u1, he1, hdne1, hd1, hw1, hu1, hune1, -⟩
          rw [sizeRegexMatch_some_of_unit he1 hdne1 hd1 hw1 hu1 hune1] at hm
          simp at hm
    | some u =>
      have hu0ne : u0 ≠ [] := by
        intro hnil
        rw [if_pos hnil] at huo0
        exact absurd huo0 (by simp)
      have huu0 : u = u0 := by
        rw [if_neg hu0ne] at huo0
        simpa using huo0
      rw [huu0] at hm
      cases hl : DATA_SIZE_UNIT_BYTE_CONVERSION_FACTOR (String.mk u0) with
      | none =>
        have hres : data_size_to_bytes s = .error (.unknownUnit (String.mk u0)) := by
          simp only [data_size_to_bytes, hm, hl]
        constructor
        · constructor
          · intro h
            rw [hres] at h
            exact absurd h (by simp [isInvalidFormatErr])
          · intro h
            exact absurd hrel h
        · constructor
          · intro _
            exact ⟨d, w0, u0, he0, hdne0, hd0, hw0, hu0, hu0ne, hl⟩
          · intro _
            simp [hres, isUnknownUnitErr]
      | some f =>
        have hres : data_size_to_bytes s = byteRound d f := by
          simp only [data_size_to_bytes, hm, hl]
        constructor
        · constructor
          · intro h
            rw [hres, (byteRound_classifiers d f).1] at h
            exact absurd h (by simp)
          · intro h
            exact absurd hrel h
        · constructor
          · intro h
            rw [hres, (byteRound_classifiers d f).2] at h
            exact absurd h (by simp)
          · rintro ⟨d1, w1, u1, he1, hdne1, hd1, hw1, hu1, hune1, hl1⟩
            rw [sizeRegexMatch_some_of_unit he1 hdne1 hd1 hw1 hu1 hune1] at hm
            rw [Option.some_inj, Prod.mk.injEq] at hm
            obtain ⟨hd1d, hu1u⟩ := hm
            rw [Option.some_inj] at hu1u
            rw [hu1u] at hl1
            rw [hl1] at hl
            exact absurd hl (by simp)

/-- Witness for the amended C8: `"zzz"` (no digits run) raises
`InvalidFormat` and hence does not decompose; `"7Q"` and — through
`$`'s trailing-newline rule — `"7Q\n"` decompose with the unknown unit
`Q` and indeed raise `UnknownUnit`, as the program does. -/
theorem c8_amended_witness :
    ¬ matchesRelaxed "zzz".data
    ∧ isUnknownUnitErr (data_size_to_bytes "7Q") = true
    ∧ isUnknownUnitErr (data_size_to_bytes "7Q\n") = true :=
  ⟨(c8_amended_error_taxonomy "zzz" (by decide)).1.mp (by decide),
   (c8_amended_error_taxonomy "7Q" (by decide)).2.mpr
     ⟨['7'], [], ['Q'], Or.inl (by decide), by decide, by decide, by decide,
      by decide, by decide, by decide⟩,
   (c8_amended_error_taxonomy "7Q\n" (by decide)).2.mpr
     ⟨['7'], [], ['Q'], Or.inr (by decide), by decide, by decide, by decide,
      by decide, by decide, by decide⟩⟩

/-! ### Lemmas: the binary64 pipeline -/

theorem log2Fuel_bounds :
    ∀ (fuel n : Nat), n ≤ fuel → 0 < n →
      2 ^ log2Fuel fuel n ≤ n ∧ n < 2 ^ (log2Fuel fuel n + 1)
  | 0, n, hle, hpos => absurd (Nat.lt_of_lt_of_le hpos hle) (by omega)
  | fuel + 1, n, hle, hpos => by
    by_cases h1 : n ≤ 1
    · have hn1 : n = 1 := by omega
      subst hn1
      simp [log2Fuel]
    · have hrec := log2Fuel_bounds fuel (n / 2) (by omega) (by omega)
      simp only [log2Fuel, if_neg h1]
      obtain ⟨hlo, hhi⟩ := hrec
      constructor
      · calc 2 ^ (log2Fuel fuel (n / 2) + 1) = 2 * 2 ^ log2Fuel fuel (n / 2) := by
              rw [Nat.pow_succ, Nat.mul_comm]
          _ ≤ 2 * (n / 2) := by omega
          _ ≤ n := by omega
      · calc n < 2 * (n / 2 + 1) := by omega
          _ ≤ 2 * 2 ^ (log2Fuel fuel (n / 2) + 1) := by omega
          _ = 2 ^ (log2Fuel fuel (n / 2) + 1 + 1) := by ring

/-- Bit-length bounds for the fuel-based log₂. -/
theorem natLog2_bounds {n : Nat} (h : 0 < n) :
    2 ^ natLog2 n ≤ n ∧ n < 2 ^ (natLog2 n + 1) :=
  log2Fuel_bounds n n (Nat.le_refl n) h

/-- Exact division rounds to itself. -/
theorem rneNat_exact {A B : Nat} (hB : 0 < B) (hdvd : B ∣ A) :
    rneNat A B = A / B := by
  obtain ⟨c, rfl⟩ := hdvd
  simp only [rneNat, Nat.mul_mod_right]
  simp [hB]

/-- `rneNat` lands within half a unit of the true quotient. -/
theorem rneNat_near (A B : Nat) (hB : 0 < B) :
    |(rneNat A B : ℚ) - (A : ℚ) / B| ≤ 1 / 2 := by
  have hBq : (0 : ℚ) < B := by exact_mod_cast hB
  have hA : (A : ℚ) = (B : ℚ) * ((A / B : Nat) : ℚ) + ((A % B : Nat) : ℚ) := by
    exact_mod_cast (Nat.div_add_mod A B).symm
  have hdiv : (A : ℚ) / B = ((A / B : Nat) : ℚ) + ((A % B : Nat) : ℚ) / B := by
    rw [hA, add_div, mul_comm, mul_div_assoc, div_self (ne_of_gt hBq), mul_one]
  have hrB : A % B < B := Nat.mod_lt _ hB
  have hrBq : ((A % B : Nat) : ℚ) / B ≤ 1 := by
    rw [div_le_one hBq]
    exact_mod_cast le_of_lt hrB
  have hr0 : (0 : ℚ) ≤ ((A % B : Nat) : ℚ) / B := by positivity
  simp only [rneNat]
  rw [hdiv]
  split_ifs with h1 h2 h3
  · have hle : ((A % B : Nat) : ℚ) / B ≤ 1 / 2 := by
      rw [div_le_div_iff hBq (by norm_num)]
      have : ((2 * (A % B) : Nat) : ℚ) ≤ (B : ℚ) := by exact_mod_cast le_of_lt h1
      push_cast at this ⊢
      linarith
    rw [show ((A / B : Nat) : ℚ) - (((A / B : Nat) : ℚ) + ((A % B : Nat) : ℚ) / B)
        = -(((A % B : Nat) : ℚ) / B) by ring, abs_neg, abs_of_nonneg hr0]
    exact hle
  · have hge : (1 : ℚ) / 2 ≤ ((A % B : Nat) : ℚ) / B := by
      rw [div_le_div_iff (by norm_num) hBq]
      have : (B : ℚ) ≤ ((2 * (A % B) : Nat) : ℚ) := by exact_mod_cast le_of_lt h2
      push_cast at this ⊢
      linarith
    push_cast
    rw [show (((A / B : Nat) : ℚ) + 1) - (((A / B : Nat) : ℚ) + ((A % B : Nat) : ℚ) / B)
        = 1 - ((A % B : Nat) : ℚ) / B by ring, abs_of_nonneg (by linarith)]
    linarith
  · have heq : ((A % B : Nat) : ℚ) / B = 1 / 2 := by
      have he : 2 * (A % B) = B := by omega
      have heB : (B : ℚ) = 2 * ((A % B : Nat) : ℚ) := by exact_mod_cast he.symm
      have hx : ((A % B : Nat) : ℚ) ≠ 0 := by
        have hxx : A % B ≠ 0 := by omega
        exact_mod_cast hxx
      rw [heB, show (2 : ℚ) * ((A % B : Nat) : ℚ) = ((A % B : Nat) : ℚ) * 2 from
        mul_comm _ _, div_mul_eq_div_div, div_self hx]
    rw [heq]
    rw [show ((A / B : Nat) : ℚ) - (((A / B : Nat) : ℚ) + 1 / 2) = -(1 / 2) by ring,
      abs_neg, abs_of_nonneg (by norm_num : (0 : ℚ) ≤ 1 / 2)]
  · have heq : ((A % B : Nat) : ℚ) / B = 1 / 2 := by
      have he : 2 * (A % B) = B := by omega
      have heB : (B : ℚ) = 2 * ((A % B : Nat) : ℚ) := by exact_mod_cast he.symm
      have hx : ((A % B : Nat) : ℚ) ≠ 0 := by
        have hxx : A % B ≠ 0 := by omega
        exact_mod_cast hxx
      rw [heB, show (2 : ℚ) * ((A % B : Nat) : ℚ) = ((A % B : Nat) : ℚ) * 2 from
        mul_comm _ _, div_mul_eq_div_div, div_self hx]
    rw [heq]
    push_cast
    rw [show (((A / B : Nat) : ℚ) + 1) - (((A / B : Nat) : ℚ) + 1 / 2) = 1 / 2 by ring,
      abs_of_nonneg (by norm_num : (0 : ℚ) ≤ 1 / 2)]

/-- On a non-positive exponent the dyadic's fraction form has the power
of two below. -/
theorem pairToND_nonpos {m : Nat} {t : Int} (ht : t ≤ 0) :
    pairToND m t = (m, 2 ^ (-t).toNat) := by
  unfold pairToND
  by_cases h0 : 0 ≤ t
  · have hz : t = 0 := le_antisymm ht h0
    subst hz
    simp
  · rw [if_neg h0]

/-- The dyadic `v * 2 ^ k * 2 ^ (-k)` is `v`. -/
theorem pairVal_int (v k : Nat) : pairVal (v * 2 ^ k) (-(k : Int)) = (v : ℚ) := by
  unfold pairVal
  push_cast
  rw [zpow_neg, zpow_natCast]
  have h2 : ((2 : ℚ) ^ k) ≠ 0 := by positivity
  field_simp

/-- Rounding the integral dyadic `v * 2 ^ k * 2 ^ (-k)` returns `v`. -/
theorem rhePair_int (v k : Nat) : rhePair (v * 2 ^ k) (-(k : Int)) = v := by
  unfold rhePair
  by_cases h0 : (0 : Int) ≤ -(k : Int)
  · have hk : k = 0 := by omega
    subst hk
    simp
  · rw [if_neg h0]
    have htn : ((-(-(k : Int))).toNat) = k := by omega
    rw [htn, rneNat_exact (Nat.pos_pow_of_pos k (by omega)) (dvd_mul_left _ v),
      Nat.mul_div_cancel v (Nat.pos_pow_of_pos k (by omega))]

/-- `int(round(x, 0))` is within half a unit of the double `x`. -/
theorem rhePair_near (m : Nat) (t : Int) :
    |(rhePair m t : ℚ) - pairVal m t| ≤ 1 / 2 := by
  unfold rhePair pairVal
  by_cases h0 : 0 ≤ t
  · rw [if_pos h0]
    have hz : ((2 : ℚ)) ^ t = ((2 ^ t.toNat : Nat) : ℚ) := by
      push_cast
      rw [← zpow_natCast]
      congr 1
      omega
    rw [hz]
    have he : ((m * 2 ^ t.toNat : Nat) : ℚ) = (m : ℚ) * ((2 ^ t.toNat : Nat) : ℚ) := by
      push_cast
      ring
    rw [he, sub_self, abs_zero]
    norm_num
  · rw [if_neg h0]
    have hB : (0 : Nat) < 2 ^ (-t).toNat := Nat.pos_pow_of_pos _ (by omega)
    have hz : (m : ℚ) * (2 : ℚ) ^ t = (m : ℚ) / ((2 ^ (-t).toNat : Nat) : ℚ) := by
      have ht' : t = -((-t).toNat : Int) := by omega
      conv_lhs => rw [ht']
      rw [zpow_neg, zpow_natCast]
      push_cast
      ring
    rw [hz]
    exact rneNat_near m _ hB

/-- The exponent the model picks is the floor of the base-two logarithm
of an exactly-divisible value. -/
theorem ilog2_int_bounds {B v : Nat} (hB : 0 < B) (hv : 0 < v) :
    0 ≤ ilog2 (B * v) B
    ∧ 2 ^ (ilog2 (B * v) B).toNat ≤ v
    ∧ v < 2 ^ ((ilog2 (B * v) B).toNat + 1) := by
  have hA : 0 < B * v := Nat.mul_pos hB hv
  obtain ⟨ha1, ha2⟩ := natLog2_bounds hA
  obtain ⟨hb1, hb2⟩ := natLog2_bounds hB
  simp only [ilog2]
  set a := natLog2 (B * v) with hadef
  set b := natLog2 B with hbdef
  have hba : b ≤ a := by
    have hBA : B ≤ B * v := Nat.le_mul_of_pos_right B hv
    have h1 : 2 ^ b ≤ B * v := le_trans hb1 hBA
    have h2 : 2 ^ b < 2 ^ (a + 1) := lt_of_le_of_lt h1 ha2
    have := (Nat.pow_lt_pow_iff_right (by omega : 1 < 2)).mp h2
    omega
  have hc0 : (0 : Int) ≤ (a : Int) - (b : Int) := by omega
  have hctn : ((a : Int) - (b : Int)).toNat = a - b := by omega
  have hub : v < 2 ^ (a - b + 1) := by
    have h2 : 2 ^ b * v < 2 ^ b * 2 ^ (a - b + 1) := by
      rw [← Nat.pow_add, show b + (a - b + 1) = a + 1 by omega]
      exact lt_of_le_of_lt (Nat.mul_le_mul_right v hb1) ha2
    exact Nat.lt_of_mul_lt_mul_left h2
  have hcond_iff : (if 0 ≤ (a : Int) - (b : Int)
        then B * 2 ^ ((a : Int) - (b : Int)).toNat ≤ B * v
        else B ≤ B * v * 2 ^ (-((a : Int) - (b : Int))).toNat)
      ↔ B * 2 ^ (a - b) ≤ B * v := by
    rw [if_pos hc0, hctn]
  simp only [hcond_iff]
  split_ifs with hcond
  · refine ⟨hc0, ?_, ?_⟩
    · rw [hctn]
      exact Nat.le_of_mul_le_mul_left hcond hB
    · rw [hctn]
      exact hub
  · push_neg at hcond
    have hvd : v < 2 ^ (a - b) := Nat.lt_of_mul_lt_mul_left hcond
    have hab1 : b + 1 ≤ a := by
      by_contra hlt
      have hab : a - b = 0 := by omega
      rw [hab, Nat.pow_zero] at hvd
      omega
    have htn1 : ((a : Int) - (b : Int) - 1).toNat = a - b - 1 := by omega
    refine ⟨by omega, ?_, ?_⟩
    · rw [htn1]
      have h2 : 2 ^ (b + 1) * 2 ^ (a - b - 1) < 2 ^ (b + 1) * v := by
        rw [← Nat.pow_add, show b + 1 + (a - b - 1) = a by omega]
        calc 2 ^ a ≤ B * v := ha1
          _ < 2 ^ (b + 1) * v := mul_lt_mul_of_pos_right hb2 hv
      exact le_of_lt (Nat.lt_of_mul_lt_mul_left h2)
    · rw [htn1, show a - b - 1 + 1 = a - b by omega]
      exact hvd

/-- The binary64 rounding is exact on products `v` (below `2 ^ 53`) of
the form `(B * v) / B`: the mantissa is `v` shifted to 53 bits and the
represented value is exactly `v`. -/
theorem flPair_int_exact {B v : Nat} (hB : 0 < B) (hv : v < 2 ^ 53) :
    ∃ k : Nat, flPair (B * v) B = some (v * 2 ^ k, -(k : Int)) := by
  rcases Nat.eq_zero_or_pos v with hv0 | hvpos
  · subst hv0
    refine ⟨0, ?_⟩
    simp [flPair]
  · obtain ⟨he0, hlow, hhigh⟩ := ilog2_int_bounds hB hvpos
    set e := ilog2 (B * v) B with hedef
    have hene : e.toNat ≤ 52 := by
      by_contra hgt
      push_neg at hgt
      have hp : (2 : Nat) ^ 53 ≤ 2 ^ e.toNat := Nat.pow_le_pow_right (by omega) hgt
      omega
    have hNne : ¬ B * v = 0 := by positivity
    refine ⟨52 - e.toNat, ?_⟩
    simp only [flPair]
    rw [if_neg hNne, ← hedef, if_neg (by omega : ¬ (1023 : Int) < e),
      max_eq_left (by omega : (-1022 : Int) ≤ e), if_pos (by omega : e ≤ (52 : Int))]
    have hdvd : B ∣ B * v * 2 ^ ((52 : Int) - e).toNat :=
      ⟨v * 2 ^ ((52 : Int) - e).toNat, by ring⟩
    rw [rneNat_exact hB hdvd]
    have hdiv : B * v * 2 ^ ((52 : Int) - e).toNat / B = v * 2 ^ (52 - e.toNat) := by
      rw [show ((52 : Int) - e).toNat = 52 - e.toNat by omega, Nat.mul_assoc,
        Nat.mul_div_cancel_left _ hB]
    rw [hdiv]
    rw [if_neg (show ¬ (e = 1023 ∧ v * 2 ^ (52 - e.toNat) = 2 ^ 53) from
      fun hcc => absurd hcc.1 (by omega))]
    simp only [Option.some_inj, Prod.mk.injEq, eq_self_iff_true, true_and]
    omega

/-- Characters of a decimal-digit run are digits-and-dots and never the
dot itself. -/
theorem digit_ne_dot {c : Char} (h : c.isDigit = true) : ¬ c = '.' := by
  intro he
  subst he
  exact absurd h (by decide)

/-- On an all-digits group the numerator is the digit value and the
denominator is one. -/
theorem floatVal_int_parts {d : List Char} (hdig : ∀ c ∈ d, c.isDigit = true) :
    floatValNum d = digitsToNat d ∧ floatValDen d = 1 := by
  have htw : d.takeWhile (fun c => !decide (c = '.')) = d := by
    apply List.takeWhile_eq_self_iff.mpr
    intro c hc
    simpa using digit_ne_dot (hdig c hc)
  have hdw : d.dropWhile (fun c => !decide (c = '.')) = [] := by
    apply List.dropWhile_eq_nil_iff.mpr
    intro c hc
    simpa using digit_ne_dot (hdig c hc)
  constructor
  · simp [floatValNum, htw, hdw, digitsToNat]
  · simp [floatValDen, hdw]

/-- An all-digits non-empty group is a valid float literal. -/
theorem validFloatStr_digits {d : List Char} (hdig : ∀ c ∈ d, c.isDigit = true)
    (hdne : d ≠ []) : validFloatStr d = true := by
  unfold validFloatStr
  rw [Bool.and_eq_true]
  constructor
  · have hz : d.count '.' = 0 := by
      rw [List.count_eq_zero]
      intro hmem
      exact digit_ne_dot (hdig '.' hmem) rfl
    simp [hz]
  · cases d with
    | nil => exact absurd rfl hdne
    | cons c t =>
      simp [List.any_cons, hdig c (List.mem_cons_self _ _)]

/-- On an all-digits group whose value times the factor fits in 53 bits,
the whole float pipeline is exact. -/
theorem byteRound_int_exact {d : List Char} {f : Nat}
    (hdne : d ≠ []) (hdig : ∀ c ∈ d, c.isDigit = true) (hf : 0 < f)
    (hlt : digitsToNat d * f < 2 ^ 53) :
    byteRound d f = .ok ((digitsToNat d * f : Nat) : Int) := by
  obtain ⟨hnum, hden⟩ := floatVal_int_parts hdig
  have hvalid := validFloatStr_digits hdig hdne
  have hNlt : digitsToNat d < 2 ^ 53 :=
    lt_of_le_of_lt (Nat.le_mul_of_pos_right _ hf) hlt
  obtain ⟨k1, hfp1⟩ := flPair_int_exact (B := 1) (v := digitsToNat d) one_pos hNlt
  rw [one_mul] at hfp1
  unfold byteRound
  rw [if_pos hvalid, hnum, hden, hfp1]
  simp only
  rw [pairToND_nonpos (by omega : -(k1 : Int) ≤ 0)]
  simp only
  have htn : ((-(-(k1 : Int))).toNat) = k1 := by omega
  rw [htn]
  have hprod : digitsToNat d * 2 ^ k1 * f = 2 ^ k1 * (digitsToNat d * f) := by ring
  rw [hprod]
  obtain ⟨k2, hfp2⟩ := flPair_int_exact (B := 2 ^ k1) (v := digitsToNat d * f)
    (Nat.pos_pow_of_pos _ (by omega)) hlt
  rw [hfp2]
  simp only
  rw [rhePair_int]

/-! ### Claim C9 -/

/-- C9, counterexample: on `"1.49999999999999999"` the program returns
2 — `float("1.49999999999999999")` rounds to the binary64 value `1.5`
and `round(1.5, 0)` rounds ties to even — but the exact numeric value
(times the implicit factor 1) has nearest integer 1, and its distance
to 2 exceeds one half.  The parser does not return the exact value
rounded to the nearest integer byte. -/
theorem c9_counterexample :
    data_size_to_bytes "1.49999999999999999" = .ok 2
    ∧ roundHalfEven (floatVal "1.49999999999999999".data) = 1
    ∧ 1 / 2 < |(2 : ℚ) - floatVal "1.49999999999999999".data| := by
  have hq : floatVal "1.49999999999999999".data
      = 1 + (49999999999999999 : ℚ) / 10 ^ 17 := by
    simp +decide [floatVal, digitsToNat]
  refine ⟨by decide, ?_, ?_⟩
  · rw [hq]
    have hfl : ⌊(1 + (49999999999999999 : ℚ) / 10 ^ 17)⌋ = 1 := by
      rw [Int.floor_eq_iff]
      constructor <;> norm_num
    simp only [roundHalfEven]
    rw [hfl, if_pos (by norm_num)]
  · rw [hq]
    rw [abs_of_pos (by norm_num)]
    norm_num

/-- C9 (amended): the conversion table holds exactly the stated
factors, and the parser's numeric semantics is binary64, not exact
arithmetic: for every `<number><unit>` string with a table unit and
every bare number (raw bytes, factor 1), the parser runs the float
pipeline on the numeric group — `float(group(1))` correctly rounded to
binary64, a binary64 multiplication by the factor, and a half-to-even
rounding of that product to an integer.  The result is within one half
of the binary64 product (not necessarily of the exact decimal value —
see the counterexample).  On inputs without precision loss the original
claim survives exactly: an all-digits number whose value times the
factor is below `2 ^ 53` parses to exactly value × factor. -/
theorem c9_amended_binary64 :
    (DATA_SIZE_UNIT_BYTE_CONVERSION_FACTOR "B" = some 1 ∧
     DATA_SIZE_UNIT_BYTE_CONVERSION_FACTOR "kB" = some (10 ^ 3) ∧
     DATA_SIZE_UNIT_BYTE_CONVERSION_FACTOR "KB" = some (10 ^ 3) ∧
     DATA_SIZE_UNIT_BYTE_CONVERSION_FACTOR "MB" = some (10 ^ 6) ∧
     DATA_SIZE_UNIT_BYTE_CONVERSION_FACTOR "GB" = some (10 ^ 9) ∧
     DATA_SIZE_UNIT_BYTE_CONVERSION_FACTOR "TB" = some (10 ^ 12) ∧
     DATA_SIZE_UNIT_BYTE_CONVERSION_FACTOR "KiB" = some (2 ^ 10) ∧
     DATA_SIZE_UNIT_BYTE_CONVERSION_FACTOR "MiB" = some (2 ^ 20) ∧
     DATA_SIZE_UNIT_BYTE_CONVERSION_FACTOR "GiB" = some (2 ^ 30) ∧
     DATA_SIZE_UNIT_BYTE_CONVERSION_FACTOR "TiB" = some (2 ^ 40)) ∧
    (∀ (d : List Char) (u : String) (f : Nat),
      (∀ c ∈ d, isDigitDotChar c = true) → d ≠ [] →
      DATA_SIZE_UNIT_BYTE_CONVERSION_FACTOR u = some f →
      data_size_to_bytes (String.mk (d ++ u.data)) = byteRound d f) ∧
    (∀ d : List Char,
      (∀ c ∈ d, isDigitDotChar c = true) → d ≠ [] →
      data_size_to_bytes (String.mk d) = byteRound d 1) ∧
    (∀ (d : List Char) (f : Nat) (p1 p2 : Nat × Int),
      validFloatStr d = true →
      flPair (floatValNum d) (floatValDen d) = some p1 →
      flPair (pairToND (p1.1 * f) p1.2).1 (pairToND (p1.1 * f) p1.2).2 = some p2 →
      byteRound d f = .ok ((rhePair p2.1 p2.2 : Nat) : Int)
      ∧ |(rhePair p2.1 p2.2 : ℚ) - pairVal p2.1 p2.2| ≤ 1 / 2) ∧
    (∀ (d : List Char) (u : String) (f : Nat),
      d ≠ [] → (∀ c ∈ d, c.isDigit = true) →
      DATA_SIZE_UNIT_BYTE_CONVERSION_FACTOR u = some f →
      digitsToNat d * f < 2 ^ 53 →
      data_size_to_bytes (String.mk (d ++ u.data))
        = .ok ((digitsToNat d * f : Nat) : Int)) := by
  refine ⟨⟨rfl, rfl, rfl, rfl, rfl, rfl, rfl, rfl, rfl, rfl⟩, ?_, ?_, ?_, ?_⟩
  · intro d u f hd hdne hfac
    have h := data_size_eval (w := []) hd hdne (by simp) hfac
    simpa using h
  · intro d hd hdne
    exact data_size_eval_bare hd hdne
  · intro d f p1 p2 hv hfp1 hfp2
    constructor
    · unfold byteRound
      rw [if_pos hv, hfp1]
      simp only
      rw [hfp2]
    · exact rhePair_near p2.1 p2.2
  · intro d u f hdne hdig hfac hlt
    obtain ⟨-, -, hf⟩ := unit_letters hfac
    have hd : ∀ c ∈ d, isDigitDotChar c = true := by
      intro c hc
      simp [isDigitDotChar, hdig c hc]
    have h := data_size_eval (w := []) hd hdne (by simp) hfac
    simp only [List.append_nil] at h
    rw [h, byteRound_int_exact hdne hdig hf hlt]

/-- Witness for the amended C9: `"4KiB"` is an all-digits number with a
table unit and no precision loss, so it parses to exactly
`4 * 2 ^ 10 = 4096`. -/
theorem c9_amended_witness :
    data_size_to_bytes (String.mk (['4'] ++ "KiB".data))
        = .ok ((digitsToNat ['4'] * 2 ^ 10 : Nat) : Int)
    ∧ data_size_to_bytes "4KiB" = .ok 4096 :=
  ⟨c9_amended_binary64.2.2.2.2 ['4'] "KiB" (2 ^ 10) (by decide) (by decide)
    rfl (by decide), by decide⟩

/-- C10: the regex tolerates whitespace between the numeric value and
the unit (`\s*`): for any digits-and-dots run, any whitespace run and
any table unit, inserting the whitespace does not change the parser's
result. -/
theorem c10_space_between_number_and_unit :
    ∀ (d w : List Char) (u : String) (f : Nat),
      (∀ c ∈ d, isDigitDotChar c = true) → d ≠ [] →
      (∀ c ∈ w, isSpaceChar c = true) →
      DATA_SIZE_UNIT_BYTE_CONVERSION_FACTOR u = some f →
      data_size_to_bytes (String.mk (d ++ w ++ u.data))
        = data_size_to_bytes (String.mk (d ++ u.data)) := by
  intro d w u f hd hdne hw hfac
  rw [data_size_eval hd hdne hw hfac]
  have h := data_size_eval (w := []) hd hdne (by simp) hfac
  simp only [List.append_nil] at h
  rw [h]

/-- Witness for C10: `"4 KiB"` parses identically to `"4KiB"`, namely to
`4096` bytes. -/
theorem c10_witness :
    data_size_to_bytes (String.mk (['4'] ++ [' '] ++ "KiB".data))
        = data_size_to_bytes (String.mk (['4'] ++ "KiB".data))
      ∧ String.mk (['4'] ++ [' '] ++ "KiB".data) = "4 KiB" := by
  refine ⟨c10_space_between_number_and_unit ['4'] [' '] "KiB" (2 ^ 10)
    (by decide) (by decide) (by decide) rfl, rfl⟩

/-! ### Lemmas: the run seen through its projections -/

theorem main_run_deleted_eq {fb : Nat} {re : Regex} {tr : Bool}
    {files : List FileCand} {f : Nat → Nat} (hpre : ¬ fb ≤ f 1) :
    (main_run fb re tr files f).deleted
      = (main_loop fb tr ((fb : Int) - (f 0 : Int)) f
          (sortByMtime (files.filter fun c => reMatch re c.path.data))
          (initState 2)).1 := by
  simp only [main_run]
  rw [if_neg hpre]
  split <;> rfl

theorem main_run_spaceFreed_eq {fb : Nat} {re : Regex} {tr : Bool}
    {files : List FileCand} {f : Nat → Nat} (hpre : ¬ fb ≤ f 1) :
    (main_run fb re tr files f).spaceFreed
      = ((main_loop fb tr ((fb : Int) - (f 0 : Int)) f
          (sortByMtime (files.filter fun c => reMatch re c.path.data))
          (initState 2)).2).spaceFreed := by
  simp only [main_run]
  rw [if_neg hpre]
  split <;> rfl

theorem main_run_count_eq {fb : Nat} {re : Regex} {tr : Bool}
    {files : List FileCand} {f : Nat → Nat} (hpre : ¬ fb ≤ f 1) :
    (main_run fb re tr files f).removedCount
      = ((main_loop fb tr ((fb : Int) - (f 0 : Int)) f
          (sortByMtime (files.filter fun c => reMatch re c.path.data))
          (initState 2)).2).removedCount := by
  simp only [main_run]
  rw [if_neg hpre]
  split <;> rfl

/-! ### Claim C1 -/

/-- C1: in `BytesDeletedTotal` mode the loop deletes exactly the maximal
prefix of the candidate list along which the cumulative bytes freed stay
below the deficit: every deleted file was deleted while the total freed
so far was `< s`, and if the loop stopped before exhausting the list
then at that point the total had reached `s` — the file about to be
considered is not deleted.  Moreover the loop's stop decision never
re-queries the filesystem: its entire result is unchanged under an
arbitrary replacement of the disk-usage oracle, and the query counter
does not advance.  The last conjunct ties this loop to `_main` in
tracking mode: past the pre-flight check, the deleted files are exactly
this loop's output on the sorted candidates with the deficit computed
from the initial measurement (query 0). -/
theorem c1_track_mode_stop (fb : Nat) (s : Int) (f : Nat → Nat) (k : Nat)
    (l : List FileCand) :
    ((main_loop fb true s f l (initState k)).1
        = l.take (main_loop fb true s f l (initState k)).1.length)
    ∧ (∀ i, i < (main_loop fb true s f l (initState k)).1.length →
        (candSum (l.take i) : Int) < s)
    ∧ ((main_loop fb true s f l (initState k)).1.length < l.length →
        s ≤ (candSum (l.take (main_loop fb true s f l (initState k)).1.length) : Int))
    ∧ (∀ g : Nat → Nat,
        main_loop fb true s g l (initState k)
          = main_loop fb true s f l (initState k))
    ∧ ((main_loop fb true s f l (initState k)).2.k = k)
    ∧ (∀ (re : Regex) (files : List FileCand), f 1 < fb →
        (main_run fb re true files f).deleted
          = (main_loop fb true ((fb : Int) - (f 0 : Int)) f
              (sortByMtime (files.filter fun c => reMatch re c.path.data))
              (initState 2)).1) := by
  refine ⟨main_loop_fst_take fb true s f l _, ?_, ?_, ?_, main_loop_track_k fb s f l _,
    ?_⟩
  · intro i hi
    have h := main_loop_track_lt fb s f l _ i hi
    simpa [initState] using h
  · intro hlen
    have h := main_loop_track_stop fb s f l _ hlen
    simpa [initState] using h
  · intro g
    exact (main_loop_track_oracle fb s f g l _).symm
  · intro re files hpre
    exact main_run_deleted_eq (not_le.mpr hpre)

/-- Witness for C1 on the worked example: with deficit 150 the loop over
`A, B, C` deletes `A` while 0 bytes were freed (`0 < 150`), stops after
`B` with `150 ≤ 300` without deleting `C`, ignores the oracle, and keeps
the query counter at 2. -/
theorem c1_witness :
    ((candSum (exFiles.take 1) : Int) < 150)
    ∧ (150 : Int) ≤ (candSum (exFiles.take
        (main_loop 150 true 150 (fun _ => 0) exFiles (initState 2)).1.length) : Int)
    ∧ main_loop 150 true 150 (fun _ => 41) exFiles (initState 2)
      = main_loop 150 true 150 (fun _ => 0) exFiles (initState 2)
    ∧ (main_run 150 reAll true exFiles (fun _ => 0)).deleted
      = (main_loop 150 true ((150 : Int) - ((fun _ : Nat => (0 : Nat)) 0 : Int))
          (fun _ => 0)
          (sortByMtime (exFiles.filter fun c => reMatch reAll c.path.data))
          (initState 2)).1 := by
  have h := c1_track_mode_stop 150 150 (fun _ => 0) 2 exFiles
  exact ⟨h.2.1 1 (by decide), h.2.2.1 (by decide), h.2.2.2.1 (fun _ => 41),
    h.2.2.2.2.2 reAll exFiles (by decide)⟩

/-! ### Claim C2 -/

/-- C2: any two files deleted in one run are deleted in non-decreasing
order of modification time (the deleted sequence is pairwise
`mtime`-ordered), and ties are broken deterministically by the sort's
stability: for every key `m`, the files with `st_mtime = m` appear among
the sorted candidates in exactly their scan order. -/
theorem c2_deletion_order (fb : Nat) (re : Regex) (tr : Bool)
    (files : List FileCand) (f : Nat → Nat) :
    List.Pairwise mtime_le (main_run fb re tr files f).deleted
    ∧ ∀ m : Int,
        (sortByMtime (files.filter fun c => reMatch re c.path.data)).filter
            (fun c => decide (c.mtime = m))
          = (files.filter fun c => reMatch re c.path.data).filter
              (fun c => decide (c.mtime = m)) := by
  constructor
  · by_cases hpre : fb ≤ f 1
    · have hdel : (main_run fb re tr files f).deleted = [] := by
        simp [main_run, hpre]
      rw [hdel]
      exact List.Pairwise.nil
    · rw [main_run_deleted_eq hpre, main_loop_fst_take]
      exact (sortByMtime_sorted
        (files.filter fun c => reMatch re c.path.data)).sublist
        (List.take_sublist _ _)
  · intro m
    exact sortByMtime_filter_key m _

/-! ### Claim C3 -/

/-- C3: the pre-flight check of `_main` line 84 calls
`sufficient_free_space()` with the default `track_bytes_deleted=False`,
i.e. it compares the live measurement (query 1) with the target whatever
the configured mode — the early-exit decision is the same for both
tracking modes — and when it passes, the run deletes nothing, frees
nothing and exits with status 0. -/
theorem c3_preflight (fb : Nat) (re : Regex) (tr : Bool)
    (files : List FileCand) (f : Nat → Nat) :
    ((main_run fb re tr files f).earlyExit = decide (fb ≤ f 1))
    ∧ (fb ≤ f 1 →
        (main_run fb re tr files f).deleted = []
        ∧ (main_run fb re tr files f).removedCount = 0
        ∧ (main_run fb re tr files f).spaceFreed = 0
        ∧ (main_run fb re tr files f).exitZero = true)
    ∧ (main_run fb re tr files f).earlyExit
        = (main_run fb re (!tr) files f).earlyExit := by
  by_cases hpre : fb ≤ f 1
  · have h1 : ∀ tr' : Bool, (main_run fb re tr' files f).earlyExit = true := by
      intro tr'
      simp [main_run, hpre]
    refine ⟨?_, fun _ => ?_, ?_⟩
    · rw [h1]
      simp [hpre]
    · refine ⟨?_, ?_, ?_, ?_⟩ <;> simp [main_run, hpre]
    · rw [h1, h1]
  · have h1 : ∀ tr' : Bool, (main_run fb re tr' files f).earlyExit = false := by
      intro tr'
      simp only [main_run]
      rw [if_neg hpre]
      split <;> rfl
    refine ⟨?_, fun h => absurd h hpre, ?_⟩
    · rw [h1]
      simp [hpre]
    · rw [h1, h1]

/-- Witness for C3: target 5, live free space 10 — the run exits early
with status 0 and no deletions, in tracking mode. -/
theorem c3_witness :
    (main_run 5 reAll true [exA] (fun _ => 10)).deleted = []
    ∧ (main_run 5 reAll true [exA] (fun _ => 10)).exitZero = true := by
  have h := (c3_preflight 5 reAll true [exA] (fun _ => 10)).2.1 (by norm_num)
  exact ⟨h.1, h.2.2.2⟩

/-! ### Claim C4 -/

/-- C4, counterexample: with target 100, initial measurement 0 and a
pre-flight measurement of 100, in `BytesDeletedTotal` mode, `_main`
returns at line 86: the exit status is 0 but no final sufficiency check
is performed — and the configured-mode check (deficit 100 against 0
bytes deleted) would fail, so the claimed "exit 0 iff the final
configured-mode check passes, checked unconditionally even on the early
pre-flight exit" is false on this run. -/
theorem c4_counterexample :
    (main_run 100 reAll true []
        (fun k => if k = 0 then 0 else 100)).finalCheckPerformed = false
    ∧ (main_run 100 reAll true []
        (fun k => if k = 0 then 0 else 100)).exitZero = true
    ∧ finalCheckSpecB 100 true (fun k => if k = 0 then 0 else 100)
        (main_run 100 reAll true [] (fun k => if k = 0 then 0 else 100)) = false := by
  exact ⟨by decide, by decide, by decide⟩

/-- C4, amended: for every run whose pre-flight live check fails (so the
deletion loop is reached), the final sufficiency check in the configured
tracking mode is performed unconditionally — whether the loop stopped on
target or exhausted its candidates — and the exit status is 0 iff that
check passes: in `BytesDeletedTotal` mode iff the deficit computed from
the initial measurement is at most the total size of the deleted files,
otherwise iff the last disk-usage query of the run meets the target.  On
an early pre-flight exit the process exits 0 without any final check. -/
theorem c4_amended_exit_code (fb : Nat) (re : Regex) (tr : Bool)
    (files : List FileCand) (f : Nat → Nat) (hpre : f 1 < fb) :
    (main_run fb re tr files f).finalCheckPerformed = true
    ∧ (main_run fb re tr files f).exitZero
        = finalCheckSpecB fb tr f (main_run fb re tr files f) := by
  have hnle : ¬ fb ≤ f 1 := not_le.mpr hpre
  have hfreed := main_loop_spaceFreed fb tr ((fb : Int) - (f 0 : Int)) f
    (sortByMtime (files.filter fun c => reMatch re c.path.data)) (initState 2)
  simp only [main_run]
  rw [if_neg hnle]
  constructor
  · split <;> rfl
  · split
    · -- zero files removed: no report query before the final check
      cases tr with
      | true =>
        simp only [finalCheckSpecB, if_true, sufficient_free_space]
        rw [hfreed]
        simp only [initState, Nat.zero_add]
        congr 1
        rw [eq_iff_iff]
        omega
      | false =>
        simp only [finalCheckSpecB, sufficient_free_space, Bool.false_eq_true,
          if_false, Nat.add_sub_cancel]
    · -- at least one file removed: one report query, then the final check
      cases tr with
      | true =>
        simp only [finalCheckSpecB, if_true, sufficient_free_space]
        rw [hfreed]
        simp only [initState, Nat.zero_add]
        congr 1
        rw [eq_iff_iff]
        omega
      | false =>
        simp only [finalCheckSpecB, sufficient_free_space, Bool.false_eq_true,
          if_false, Nat.add_sub_cancel]

/-- Witness for the amended C4: target 10, all measurements 0, no files:
the loop is reached, the final check is performed, and the run exits
nonzero because the check fails. -/
theorem c4_amended_witness :
    (main_run 10 reAll true [] (fun _ => 0)).finalCheckPerformed = true
    ∧ (main_run 10 reAll true [] (fun _ => 0)).exitZero
        = finalCheckSpecB 10 true (fun _ => 0)
            (main_run 10 reAll true [] (fun _ => 0)) :=
  c4_amended_exit_code 10 reAll true [] (fun _ => 0) (by norm_num)

/-! ### Claim C5 -/

/-- C5: the worked scenario.  Candidates `A (mtime 1, 100 B)`,
`B (mtime 2, 200 B)`, `C (mtime 3, 50 B)`, filter `.*`,
`BytesDeletedTotal` mode, target 150 with initial free space 0 (deficit
150): the run deletes exactly `A` then `B`, leaves `C` untouched, and
ends with removed-file count 2 and 300 bytes freed. -/
theorem c5_worked_scenario :
    (main_run 150 reAll true exFiles (fun _ => 0)).deleted = [exA, exB]
    ∧ (main_run 150 reAll true exFiles (fun _ => 0)).removedCount = 2
    ∧ (main_run 150 reAll true exFiles (fun _ => 0)).spaceFreed = 300
    ∧ exC ∉ (main_run 150 reAll true exFiles (fun _ => 0)).deleted := by
  exact ⟨by decide, by decide, by decide, by decide⟩

/-! ### Claim C6 -/

/-- C6: a scanned file becomes a deletion candidate iff the filter
regex matches its full path anchored at the start — i.e. iff some
prefix of the path is in the regex's language, a prefix match, not a
whole-string match; every deleted file satisfies this prefix match,
files that do not are never deleted, and the freed-bytes and
removed-count totals are exactly the totals over the deleted files, so
non-matching files contribute nothing to them. -/
theorem c6_filter_semantics (fb : Nat) (re : Regex) (tr : Bool)
    (files : List FileCand) (f : Nat → Nat) :
    (∀ c ∈ files,
        c ∈ files.filter (fun c => reMatch re c.path.data)
          ↔ ∃ p q, c.path.data = p ++ q ∧ RMatch re p)
    ∧ (∀ c ∈ (main_run fb re tr files f).deleted,
        ∃ p q, c.path.data = p ++ q ∧ RMatch re p)
    ∧ (∀ c, (¬ ∃ p q, c.path.data = p ++ q ∧ RMatch re p) →
        c ∉ (main_run fb re tr files f).deleted)
    ∧ (main_run fb re tr files f).spaceFreed
        = candSum (main_run fb re tr files f).deleted
    ∧ (main_run fb re tr files f).removedCount
        = (main_run fb re tr files f).deleted.length := by
  have hmem : ∀ c ∈ (main_run fb re tr files f).deleted,
      ∃ p q, c.path.data = p ++ q ∧ RMatch re p := by
    intro c hc
    by_cases hpre : fb ≤ f 1
    · rw [show (main_run fb re tr files f).deleted = [] by simp [main_run, hpre]] at hc
      simp at hc
    · rw [main_run_deleted_eq hpre, main_loop_fst_take] at hc
      have hc2 : c ∈ sortByMtime (files.filter fun c => reMatch re c.path.data) :=
        List.mem_of_mem_take hc
      have hc3 : c ∈ files.filter fun c => reMatch re c.path.data :=
        (sortByMtime_perm _).mem_iff.mp hc2
      exact reMatch_iff.mp ((List.mem_filter.mp hc3).2)
  refine ⟨?_, hmem, ?_, ?_, ?_⟩
  · intro c hc
    rw [List.mem_filter]
    constructor
    · intro h
      exact reMatch_iff.mp h.2
    · intro h
      exact ⟨hc, reMatch_iff.mpr h⟩
  · intro c hno hc
    exact hno (hmem c hc)
  · by_cases hpre : fb ≤ f 1
    · have h1 : (main_run fb re tr files f).deleted = [] := by simp [main_run, hpre]
      have h2 : (main_run fb re tr files f).spaceFreed = 0 := by simp [main_run, hpre]
      rw [h1, h2, candSum_nil]
    · rw [main_run_deleted_eq hpre, main_run_spaceFreed_eq hpre,
        main_loop_spaceFreed]
      simp [initState]
  · by_cases hpre : fb ≤ f 1
    · have h1 : (main_run fb re tr files f).deleted = [] := by simp [main_run, hpre]
      have h2 : (main_run fb re tr files f).removedCount = 0 := by
        simp [main_run, hpre]
      rw [h1, h2]
      rfl
    · rw [main_run_deleted_eq hpre, main_run_count_eq hpre, main_loop_count]
      simp [initState]

/-- Witness for C6 on the worked scenario: `A` was deleted and its path
has a matching prefix; a file whose path matches no prefix of `.*` does
not exist, so we exhibit the totals instead: bytes freed equal the sum
over the deleted files and the count equals their number. -/
theorem c6_witness :
    (∃ p q, exA.path.data = p ++ q ∧ RMatch reAll p)
    ∧ (main_run 150 reAll true exFiles (fun _ => 0)).spaceFreed
        = candSum (main_run 150 reAll true exFiles (fun _ => 0)).deleted
    ∧ (main_run 150 reAll true exFiles (fun _ => 0)).removedCount
        = (main_run 150 reAll true exFiles (fun _ => 0)).deleted.length := by
  have h := c6_filter_semantics 150 reAll true exFiles (fun _ => 0)
  exact ⟨h.2.1 exA (by decide), h.2.2.2.1, h.2.2.2.2⟩

/-! ### Claim C7 -/

/-- C7: after the deletion loop (i.e. whenever the pre-flight check
failed), the "No files to remove" warning is emitted iff zero files were
removed; otherwise the informational summary is emitted and contains the
removed-file count, the last removed file's original modification
timestamp (whose ISO-8601 rendering is a pure function of that epoch
value), the total bytes freed — equal to the sum of the sizes of the
deleted candidates — and the filesystem-observed delta: the free bytes
returned by the fresh disk-usage query made for the report minus the
free bytes of the very first measurement of the run (query 0). -/
theorem c7_completion_report (fb : Nat) (re : Regex) (tr : Bool)
    (files : List FileCand) (f : Nat → Nat) (hpre : f 1 < fb) :
    ((main_run fb re tr files f).warnNoFiles
        = decide ((main_run fb re tr files f).removedCount = 0))
    ∧ ((main_run fb re tr files f).removedCount = 0 →
        (main_run fb re tr files f).summary = none)
    ∧ ((main_run fb re tr files f).removedCount ≠ 0 →
        ∃ k, (main_run fb re tr files f).reportQuery = some k
          ∧ (main_run fb re tr files f).summary = some
              { count := (main_run fb re tr files f).removedCount
                lastMtime := ((main_run fb re tr files f).deleted.getLast?).map
                  (fun c => c.mtime)
                bytesFreed := candSum (main_run fb re tr files f).deleted
                fsDelta := (f k : Int) - (f 0 : Int) }) := by
  have hnle : ¬ fb ≤ f 1 := not_le.mpr hpre
  have hlast := main_loop_last fb tr ((fb : Int) - (f 0 : Int)) f
    (sortByMtime (files.filter fun c => reMatch re c.path.data)) (initState 2)
  have hfreed := main_loop_spaceFreed fb tr ((fb : Int) - (f 0 : Int)) f
    (sortByMtime (files.filter fun c => reMatch re c.path.data)) (initState 2)
  have hcount := main_loop_count fb tr ((fb : Int) - (f 0 : Int)) f
    (sortByMtime (files.filter fun c => reMatch re c.path.data)) (initState 2)
  simp only [main_run]
  rw [if_neg hnle]
  split
  · rename_i hzero
    refine ⟨by simp [hzero], fun _ => rfl, fun hne => absurd hzero hne⟩
  · rename_i hnzero
    refine ⟨by simp [hnzero], fun h => absurd h hnzero, fun _ => ?_⟩
    refine ⟨_, rfl, ?_⟩
    have hne : (main_loop fb tr ((fb : Int) - (f 0 : Int)) f
        (sortByMtime (files.filter fun c => reMatch re c.path.data))
        (initState 2)).1 ≠ [] := by
      intro hniall
      rw [hcount, hniall] at hnzero
      simp [initState] at hnzero
    have e1 := (hlast.trans (foldl_mtime_getLast _ _ hne)).symm
    have e2 : candSum (main_loop fb tr ((fb : Int) - (f 0 : Int)) f
        (sortByMtime (files.filter fun c => reMatch re c.path.data))
        (initState 2)).1
        = ((main_loop fb tr ((fb : Int) - (f 0 : Int)) f
            (sortByMtime (files.filter fun c => reMatch re c.path.data))
            (initState 2)).2).spaceFreed := by
      rw [hfreed]
      simp [initState]
    dsimp only
    rw [e1, e2]

/-- Witness for C7: target 10, measurements `f k = k`, one candidate
`A`: one file is removed, no warning, and the summary records count 1,
`A`'s mtime, 100 bytes freed, and the observed delta `f 2 - f 0 = 2`. -/
theorem c7_witness :
    ((main_run 10 reAll true [exA] (fun n => n)).warnNoFiles
        = decide ((main_run 10 reAll true [exA] (fun n => n)).removedCount = 0))
    ∧ ∃ k, (main_run 10 reAll true [exA] (fun n => n)).reportQuery = some k
        ∧ (main_run 10 reAll true [exA] (fun n => n)).summary = some
            { count := (main_run 10 reAll true [exA] (fun n => n)).removedCount
              lastMtime := ((main_run 10 reAll true [exA]
                  (fun n => n)).deleted.getLast?).map (fun c => c.mtime)
              bytesFreed := candSum (main_run 10 reAll true [exA]
                  (fun n => n)).deleted
              fsDelta := ((fun n => n) k : Int) - ((fun n => n) 0 : Int) } := by
  have h := c7_completion_report 10 reAll true [exA] (fun n => n) (by norm_num)
  exact ⟨h.1, h.2.2 (by decide)⟩

end FreeDisk
